import Mathlib

/-!
Shallow embedding of the extraction-and-consolidation pipeline of
`botsintese.py` (BotSíntese v3.0), together with proofs about the claims
of its specification.

Python strings are modelled as `String`/`List Char`; the helper functions
below reproduce the behaviour of the Python `str` methods used by the
source (`strip`, `split`, `join`, `replace`, `upper`, `lower`, slicing,
substring test) by structural recursion on the character list, so that
every definition evaluates inside the kernel.  Unicode-specific behaviour
(NFKD decomposition, case mapping) is modelled by explicit tables
covering the Latin letters that occur in the source's domain; characters
outside the tables are left unchanged.
-/

namespace BotSintese

/-- Whitespace characters recognised by Python's `str.strip`/`str.split`
(the ASCII whitespace set, which is what the pipeline's data contains). -/
def ehEspaco (c : Char) : Bool :=
  c = ' ' || c = '\t' || c = '\n' || c = '\r' || c = '\x0b' || c = '\x0c'

/-- Python `str.strip()` on a character list. -/
def stripL (s : List Char) : List Char :=
  ((s.dropWhile ehEspaco).reverse.dropWhile ehEspaco).reverse

/-- Helper for `dividirEspacos`: accumulates the current word (reversed). -/
def dividirEspAux (atual : List Char) : List Char → List (List Char)
  | [] => if atual.isEmpty then [] else [atual.reverse]
  | c :: t =>
    if ehEspaco c then
      (if atual.isEmpty then dividirEspAux [] t else atual.reverse :: dividirEspAux [] t)
    else dividirEspAux (c :: atual) t

/-- Python `str.split()` (split on whitespace runs, no empty pieces). -/
def dividirEspacos (s : List Char) : List (List Char) := dividirEspAux [] s

/-- Python `' '.join(pieces)`. -/
def juntarEspaco : List (List Char) → List Char
  | [] => []
  | [p] => p
  | p :: q :: ps => p ++ ' ' :: juntarEspaco (q :: ps)

/-- Does the second list start with the first one? -/
def comecaCom : List Char → List Char → Bool
  | [], _ => true
  | _ :: _, [] => false
  | p :: ps, c :: cs => p == c && comecaCom ps cs

/-- Python's substring test `p in s`. -/
def contemSub (p : List Char) : List Char → Bool
  | [] => p.isEmpty
  | c :: t => comecaCom p (c :: t) || contemSub p t

/-- Fuelled worker for `substituirVazio`; the fuel is the length of the
scanned string, and every step consumes at least one character. -/
def substituirVazioF (alvo : List Char) : ℕ → List Char → List Char
  | 0, s => s
  | _ + 1, [] => []
  | fuel + 1, c :: t =>
    if comecaCom alvo (c :: t) then substituirVazioF alvo fuel ((c :: t).drop alvo.length)
    else c :: substituirVazioF alvo fuel t

/-- Python `s.replace(alvo, '')`: removes every (leftmost-first,
non-overlapping) occurrence of `alvo`. -/
def substituirVazio (alvo s : List Char) : List Char :=
  if alvo.isEmpty then s else substituirVazioF alvo s.length s

/-- Case table: lower-case letter to upper-case letter, ASCII plus the
Latin-1 accented letters of the source's domain. -/
def tabelaMaiusculas : List (Char × Char) :=
  [('a', 'A'), ('b', 'B'), ('c', 'C'), ('d', 'D'), ('e', 'E'), ('f', 'F'),
   ('g', 'G'), ('h', 'H'), ('i', 'I'), ('j', 'J'), ('k', 'K'), ('l', 'L'),
   ('m', 'M'), ('n', 'N'), ('o', 'O'), ('p', 'P'), ('q', 'Q'), ('r', 'R'),
   ('s', 'S'), ('t', 'T'), ('u', 'U'), ('v', 'V'), ('w', 'W'), ('x', 'X'),
   ('y', 'Y'), ('z', 'Z'),
   ('á', 'Á'), ('à', 'À'), ('â', 'Â'), ('ã', 'Ã'), ('ä', 'Ä'),
   ('é', 'É'), ('è', 'È'), ('ê', 'Ê'), ('ë', 'Ë'),
   ('í', 'Í'), ('ì', 'Ì'), ('î', 'Î'), ('ï', 'Ï'),
   ('ó', 'Ó'), ('ò', 'Ò'), ('ô', 'Ô'), ('õ', 'Õ'), ('ö', 'Ö'),
   ('ú', 'Ú'), ('ù', 'Ù'), ('û', 'Û'), ('ü', 'Ü'),
   ('ç', 'Ç'), ('ñ', 'Ñ'), ('ý', 'Ý')]

/-- Python `str.upper()` on one character (table-based model). -/
def maiusculaChar (c : Char) : Char := (tabelaMaiusculas.lookup c).getD c

/-- Python `str.upper()` (model restricted to the Latin repertoire). -/
def maiusculas (s : List Char) : List Char := s.map maiusculaChar

/-- Case table: upper-case letter to lower-case letter. -/
def tabelaMinusculas : List (Char × Char) := tabelaMaiusculas.map (fun p => (p.2, p.1))

/-- Python `str.lower()` on one character (table-based model). -/
def minusculaChar (c : Char) : Char := (tabelaMinusculas.lookup c).getD c

/-- Python `str.lower()` (model restricted to the Latin repertoire). -/
def minusculas (s : List Char) : List Char := s.map minusculaChar

/-- Decomposition table modelling `unicodedata.normalize('NFKD', ·)`
followed by dropping combining characters, restricted to the Latin-1
accented letters that occur in Brazilian legal documents. -/
def tabelaAcentos : List (Char × Char) :=
  [('á', 'a'), ('à', 'a'), ('â', 'a'), ('ã', 'a'), ('ä', 'a'), ('å', 'a'),
   ('é', 'e'), ('è', 'e'), ('ê', 'e'), ('ë', 'e'),
   ('í', 'i'), ('ì', 'i'), ('î', 'i'), ('ï', 'i'),
   ('ó', 'o'), ('ò', 'o'), ('ô', 'o'), ('õ', 'o'), ('ö', 'o'),
   ('ú', 'u'), ('ù', 'u'), ('û', 'u'), ('ü', 'u'),
   ('ç', 'c'), ('ñ', 'n'), ('ý', 'y'), ('ÿ', 'y'),
   ('Á', 'A'), ('À', 'A'), ('Â', 'A'), ('Ã', 'A'), ('Ä', 'A'), ('Å', 'A'),
   ('É', 'E'), ('È', 'E'), ('Ê', 'E'), ('Ë', 'E'),
   ('Í', 'I'), ('Ì', 'I'), ('Î', 'I'), ('Ï', 'I'),
   ('Ó', 'O'), ('Ò', 'O'), ('Ô', 'O'), ('Õ', 'O'), ('Ö', 'O'),
   ('Ú', 'U'), ('Ù', 'U'), ('Û', 'U'), ('Ü', 'U'),
   ('Ç', 'C'), ('Ñ', 'N'), ('Ý', 'Y')]

/-- One character of `removerAcentos`: decomposed base letter, empty
for a standalone combining mark, the character itself otherwise. -/
def semAcentoChar (c : Char) : List Char :=
  match tabelaAcentos.lookup c with
  | some b => [b]
  | none => if 0x300 ≤ c.toNat ∧ c.toNat ≤ 0x36F then [] else [c]

/-- Concatenation of the images of `f`; `List.flatMap` written out so that
all recursions in this file share one shape. -/
def concatMapL {α β : Type} (f : α → List β) : List α → List β
  | [] => []
  | a :: t => f a ++ concatMapL f t

/-- The accent-stripping stage of `normalizar_nome`
(`unicodedata.normalize('NFKD', nome)` + drop combining marks). -/
def removerAcentos (s : List Char) : List Char := concatMapL semAcentoChar s

/-- Numeric value of a list of decimal digits. -/
def valorDigitos (l : List Char) : ℕ := l.foldl (fun a c => a * 10 + (c.toNat - 48)) 0

/-- Python `int(s)`: optional surrounding whitespace, optional sign,
then at least one digit.  (Underscore separators are not modelled.) -/
def inteiroOpt (s : List Char) : Option ℤ :=
  let t := stripL s
  match t with
  | '-' :: ds => if ds ≠ [] ∧ ds.all Char.isDigit then some (-(valorDigitos ds : ℤ)) else none
  | '+' :: ds => if ds ≠ [] ∧ ds.all Char.isDigit then some (valorDigitos ds : ℤ) else none
  | ds => if ds ≠ [] ∧ ds.all Char.isDigit then some (valorDigitos ds : ℤ) else none

/-- Python `int(q)` for a rational `q` (truncation toward zero). -/
def pyTrunc (q : ℚ) : ℤ := q.num.tdiv q.den

/-!
## Data model

Typed counterparts of the JSON dictionaries produced by the extraction
prompt and consumed by `mesclar_extracoes`.  A key read with
`dict.get(k, "")` is modelled as a `String` field (absent = `""`); the
`descricao` key of a history entry is an `Option String` because the
source falls back to the `evento` key when `descricao` is absent
(`h.get("descricao", h.get("evento", ""))`).  The result dictionary's
fields `pedidos_autor`, `pedidos_reu`, `pedidos_reconvencao` and
`preliminares` are initialised to `[]` by `mesclar_extracoes` and never
read nor written afterwards, so they are omitted from the structure.
-/

/-- A party entry: keys `nome` and `polo`. -/
structure Parte where
  nome : String
  polo : String
deriving DecidableEq, Repr

/-- A monetary entry: keys `descricao` and `valor`. -/
structure Valor where
  descricao : String
  valor : String
deriving DecidableEq, Repr

/-- A decision entry: keys `data`, `tipo` and `conteudo`. -/
structure Decisao where
  data : String
  tipo : String
  conteudo : String
deriving DecidableEq, Repr

/-- A key-document entry: keys `tipo`, `data`, `parte` and `resumo`. -/
structure Documento where
  tipo : String
  data : String
  parte : String
  resumo : String
deriving DecidableEq, Repr

/-- A timeline entry: keys `data`, `evento` and `descricao`. -/
structure Hist where
  data : String
  evento : String
  descricao : Option String
deriving DecidableEq, Repr

/-- The description read in the history loop of `mesclar_extracoes`:
the `descricao` key, falling back to the `evento` key, then to `""`. -/
def descricaoDe (h : Hist) : String := h.descricao.getD h.evento

/-- A partial extraction (per chunk) or the consolidated record.  The
consolidated record additionally carries `historico_processual` and
`historico_fatico`; on an extraction these fields are empty, and
`mesclar_extracoes` never reads them (it reads `historico_detalhado`). -/
@[ext]
structure Extracao where
  partes : List Parte := []
  objeto_acao : String := ""
  resumo_fatos : String := ""
  valores_relevantes : List Valor := []
  pedidos : List String := []
  decisoes : List Decisao := []
  teses_autor : List String := []
  teses_reu : List String := []
  documentos_importantes : List Documento := []
  historico_detalhado : List Hist := []
  historico_processual : List Hist := []
  historico_fatico : List Hist := []
  status_atual : String := ""
deriving DecidableEq, Repr

/-!
## Normalisation and cleanup helpers (source lines 445-577)
-/

/-- The corporate-suffix list of `normalizar_nome` (source line 460). -/
def sufixos : List String :=
  [" LTDA.", " LTDA", " S/A", " S.A.", " S.A", " EPP", " ME", " EIRELI",
   " SOCIEDADE SIMPLES"]

/-- Source `normalizar_nome` (lines 445-467): strip accents, upper-case
and strip, remove corporate suffixes, collapse whitespace. -/
def normalizar_nome (nome : String) : String :=
  if nome = "" then ""
  else
    let s1 := removerAcentos nome.data
    let s2 := stripL (maiusculas s1)
    let s3 := sufixos.foldl (fun acc suf => substituirVazio suf.data acc) s2
    ⟨juntarEspaco (dividirEspacos s3)⟩

/-- Source `parse_data_brasileira` (lines 470-484): day/month/year to the
sortable tuple `(aaaa, mm, dd)`; anything unparseable maps to `(0,0,0)`. -/
def parse_data_brasileira (data_str : String) : ℤ × ℤ × ℤ :=
  match (stripL data_str.data).splitOn '/' with
  | [dia, mes, ano] =>
    match inteiroOpt ano, inteiroOpt mes, inteiroOpt dia with
    | some a, some m, some d => (a, m, d)
    | _, _, _ => (0, 0, 0)
  | _ => (0, 0, 0)

/-- The noise-phrase list of `is_evento_relevante` (source lines 495-512). -/
def termos_irrelevantes : List String :=
  ["assinado eletronicamente",
   "assinatura eletrônica",
   "documento assinado",
   "concluso para assinatura",
   "conclusos para",
   "remetido para",
   "juntada automática",
   "certidão de publicação",
   "vista ao",
   "autos recebidos",
   "aguardando",
   "expediente forense",
   "não houve expediente",
   "feriado",
   "recesso",
   "portaria conjunta"]

/-- Source `is_evento_relevante` (lines 487-518): an event is relevant
when its description is non-empty and contains no noise phrase. -/
def is_evento_relevante (descricao : String) : Bool :=
  if descricao = "" then false
  else !(termos_irrelevantes.any fun termo => contemSub termo.data (minusculas descricao.data))

/-- The factual-keyword list of `categorizar_evento` (source lines 529-535). -/
def termos_faticos : List String :=
  ["contrato", "pagamento", "pago", "boleto", "parcela",
   "protesto", "negativação", "serasa", "spc", "cadastro",
   "whatsapp", "mensagem", "email", "notificação extrajudicial",
   "renegociação", "acordo", "tratamento", "serviço",
   "emissão", "vencimento", "prestação"]

/-- Source `categorizar_evento` (lines 521-541): "fatico" when the
description contains a factual keyword, "processual" otherwise. -/
def categorizar_evento (descricao : String) : String :=
  if descricao = "" then "processual"
  else if termos_faticos.any (fun t => contemSub t.data (minusculas descricao.data)) then "fatico"
  else "processual"

/-!
## Monetary values (`deduplicar_valores`, source lines 544-577)
-/

/-- The cleanup `re.sub(r'[^\d,.]', '', valor).replace('.', '').replace(',', '.')`
applied to a value string before the float conversion. -/
def limparValor (valor : List Char) : List Char :=
  (((valor.filter fun c => c.isDigit || c = ',' || c = '.').filter fun c => c ≠ '.').map
    fun c => if c = ',' then '.' else c)

/-- Python `float(s)` for the digits-and-dots strings produced by
`limparValor`, as an exact decimal `(digits, number of decimals)` meaning
`digits / 10 ^ decimals`; `none` models a `ValueError`.  (Sign, exponent
and `inf`/`nan` forms cannot occur after the cleanup.) -/
def flutuanteOpt (s : List Char) : Option (ℕ × ℕ) :=
  match s.splitOn '.' with
  | [ip] => if ip ≠ [] ∧ ip.all Char.isDigit then some (valorDigitos ip, 0) else none
  | [ip, fp] =>
    if ip ++ fp ≠ [] ∧ (ip ++ fp).all Char.isDigit then
      some (valorDigitos (ip ++ fp), fp.length)
    else none
  | _ => none

/-- The value rounded to cents with round-half-to-even, i.e. the numeric
content of the two-decimal f-string of `valor_float` used in the dedup
key.  The input `(n, k)` denotes `n / 10 ^ k`.  Rounding is modelled on
the exact decimal; the representation error of Python's binary floats
(visible only at the third decimal of a tie) is not modelled. -/
def centavos2 (nk : ℕ × ℕ) : ℕ :=
  if nk.2 ≤ 2 then nk.1 * 10 ^ (2 - nk.2)
  else
    let d := 10 ^ (nk.2 - 2)
    let q := nk.1 / d
    let r := nk.1 % d
    if 2 * r < d then q else if d < 2 * r then q + 1 else (if q % 2 = 0 then q else q + 1)

/-- The `valor_float` of `deduplicar_valores` rounded to cents: the parse
failure (and the empty string) defaults to `0`. -/
def valorEmCentavos (valor : List Char) : ℕ :=
  match flutuanteOpt (limparValor valor) with
  | some nk => centavos2 nk
  | none => 0

/-- The guard of the `deduplicar_valores` loop: both the stripped
description and the stripped value must be non-empty. -/
def valorGuard (v : Valor) : Bool :=
  !(stripL v.descricao.data).isEmpty && !(stripL v.valor.data).isEmpty

/-- The dedup key of `deduplicar_valores` -- the f-string of the float
formatted to two decimals, a bar, and the key words: modelled as the
rounded cents paired with the first three words of the lower-cased
description. -/
def chaveValor (v : Valor) : ℕ × List Char :=
  (valorEmCentavos (stripL v.valor.data),
   juntarEspaco ((dividirEspacos (minusculas (stripL v.descricao.data))).take 3))

/-- Generic first-occurrence filter: one pass, keeping an element when
its guard holds and its key was not seen before (the `seen`-set plus
append pattern used throughout `mesclar_extracoes` and
`deduplicar_valores`).  Returns the kept elements and the final seen set. -/
def dedupGoS {α κ : Type} [DecidableEq κ] (g : α → Bool) (k : α → κ) :
    List κ → List α → List α × List κ
  | vistos, [] => ([], vistos)
  | vistos, a :: l =>
    if g a = true ∧ k a ∉ vistos then
      let r := dedupGoS g k (k a :: vistos) l
      (a :: r.1, r.2)
    else dedupGoS g k vistos l

/-- Source `deduplicar_valores` (lines 544-577). -/
def deduplicar_valores (valores : List Valor) : List Valor :=
  (dedupGoS valorGuard chaveValor [] valores).1

/-!
## The merge engine `mesclar_extracoes` (source lines 580-729)

The Python function iterates over the extractions once, threading one
independent seen-set per deduplicated field; that is equivalent to
running the per-field first-occurrence filter on the concatenation of
the per-extraction lists, which is how each field is written below.
The scalar fields (`objeto_acao`, `resumo_fatos`, `status_atual`) are
modelled as the left fold that the loop performs.
-/

/-- Lexicographic order on `(year, month, day)` tuples, i.e. Python's
tuple comparison used by `list.sort(key=parse_data_brasileira(...))`. -/
def tripleLe (x y : ℤ × ℤ × ℤ) : Prop :=
  x.1 < y.1 ∨ (x.1 = y.1 ∧ (x.2.1 < y.2.1 ∨ (x.2.1 = y.2.1 ∧ x.2.2 ≤ y.2.2)))

instance : DecidableRel tripleLe := fun x y => by unfold tripleLe; infer_instance

/-- The sort order of the history lists: by parsed date key. -/
def histRel (h1 h2 : Hist) : Prop :=
  tripleLe (parse_data_brasileira h1.data) (parse_data_brasileira h2.data)

instance : DecidableRel histRel := fun h1 h2 => by unfold histRel; infer_instance

instance : IsTotal Hist histRel :=
  ⟨fun h1 h2 => by unfold histRel tripleLe; omega⟩

instance : IsTrans Hist histRel :=
  ⟨fun a b c hab hbc => by
    unfold histRel tripleLe at *
    omega⟩

/-- The sort of the history lists by parsed date key:
Python's sort is stable, and `List.insertionSort` with a reflexive total
preorder is a stable sort, so they agree. -/
def ordenarPorData (l : List Hist) : List Hist := List.insertionSort histRel l

/-- Guard of the party loop (source lines 630-638): the stripped name is
non-empty, is not the literal placeholder `NONE`, and normalises to a
non-empty key. -/
def parteGuard (p : Parte) : Bool :=
  let nome := stripL p.nome.data
  !nome.isEmpty && !(maiusculas nome == "NONE".data) &&
    !(normalizar_nome ⟨nome⟩).data.isEmpty

/-- Party dedup key: `normalizar_nome(nome_original)` where
`nome_original = p.get("nome", "").strip()`. -/
def parteChave (p : Parte) : List Char := (normalizar_nome ⟨stripL p.nome.data⟩).data

/-- Guard of the `pedidos`/`teses` loops: a non-empty string. -/
def pedidoGuard (p : String) : Bool := !p.data.isEmpty

/-- Dedup key of the `pedidos`/`teses` loops: `p.lower().strip()[:50]`. -/
def pedidoChave (p : String) : List Char := (stripL (minusculas p.data)).take 50

/-- The normalised document type `d.get("tipo", "").lower().strip()`. -/
def docTipo (d : Documento) : List Char := stripL (minusculas d.tipo.data)

/-- Guard of the document loop: non-empty normalised type. -/
def docGuard (d : Documento) : Bool := !(docTipo d).isEmpty

/-- Guard of the history loop: `is_evento_relevante(desc)`. -/
def histGuard (h : Hist) : Bool := is_evento_relevante (descricaoDe h)

/-- Dedup key of the history loop: the lower-cased f-string of the date, a bar, and the first 30 characters of the description. -/
def histChave (h : Hist) : List Char :=
  minusculas (h.data.data ++ '|' :: (descricaoDe h).data.take 30)

/-- One step of the `objeto_acao` accumulation: first non-empty wins
(source lines 618-619). -/
def passoObjeto (acc : String) (e : Extracao) : String :=
  if acc = "" ∧ e.objeto_acao ≠ "" then e.objeto_acao else acc

/-- One step of the `resumo_fatos` accumulation: concatenate with a blank
line unless the incoming summary is empty or already a substring of the
accumulator (source lines 622-627). -/
def passoResumo (acc : String) (e : Extracao) : String :=
  if e.resumo_fatos ≠ "" ∧ contemSub e.resumo_fatos.data acc.data = false then
    (if acc ≠ "" then ⟨acc.data ++ '\n' :: '\n' :: e.resumo_fatos.data⟩ else e.resumo_fatos)
  else acc

/-- One step of the `status_atual` accumulation: the source overwrites on
every non-empty value, so the last non-empty value wins (source lines
703-705, comment `pega o último não vazio`). -/
def passoStatus (acc : String) (e : Extracao) : String :=
  if e.status_atual ≠ "" then e.status_atual else acc

/-- Is the event categorised as factual? (`categoria == "fatico"`). -/
def ehFatico (h : Hist) : Bool := categorizar_evento (descricaoDe h) == "fatico"

/-- The deduplicated relevant history entries collected from all
extractions (the contents of `historico_vistos`-guarded appends). -/
def keptHist (extracoes : List Extracao) : List Hist :=
  (dedupGoS histGuard histChave [] (concatMapL Extracao.historico_detalhado extracoes)).1

/-- The `historico_processual` of the merged record: the non-factual kept
events, sorted chronologically. -/
def histProcessualDe (extracoes : List Extracao) : List Hist :=
  ordenarPorData ((keptHist extracoes).filter fun h => !ehFatico h)

/-- The `historico_fatico` of the merged record: the factual kept events,
sorted chronologically. -/
def histFaticoDe (extracoes : List Extracao) : List Hist :=
  ordenarPorData ((keptHist extracoes).filter ehFatico)

/-- Source `mesclar_extracoes` (lines 580-729): merge a list of partial
extractions into one record, deduplicating parties, monetary values,
claims, theses, documents and timeline events, splitting the timeline by
category and sorting chronologically. -/
def mesclar_extracoes (extracoes : List Extracao) : Extracao :=
  { partes := (dedupGoS parteGuard parteChave [] (concatMapL Extracao.partes extracoes)).1
    objeto_acao := extracoes.foldl passoObjeto ""
    resumo_fatos := extracoes.foldl passoResumo ""
    valores_relevantes := deduplicar_valores (concatMapL Extracao.valores_relevantes extracoes)
    pedidos := (dedupGoS pedidoGuard pedidoChave [] (concatMapL Extracao.pedidos extracoes)).1
    decisoes := concatMapL Extracao.decisoes extracoes
    teses_autor := (dedupGoS pedidoGuard pedidoChave [] (concatMapL Extracao.teses_autor extracoes)).1
    teses_reu := (dedupGoS pedidoGuard pedidoChave [] (concatMapL Extracao.teses_reu extracoes)).1
    documentos_importantes :=
      (dedupGoS docGuard docTipo [] (concatMapL Extracao.documentos_importantes extracoes)).1
    historico_processual := histProcessualDe extracoes
    historico_fatico := histFaticoDe extracoes
    historico_detalhado := ordenarPorData (histProcessualDe extracoes ++ histFaticoDe extracoes)
    status_atual := extracoes.foldl passoStatus "" }

/-- The consolidation dispatch of `processar_processo` (source lines
1143-1151): more than one parsed extraction is merged, exactly one is
used verbatim, none leaves the record unset. -/
def consolidar (extracoes : List Extracao) : Option Extracao :=
  if 1 < extracoes.length then some (mesclar_extracoes extracoes)
  else
    match extracoes with
    | [] => none
    | e :: _ => some e

/-!
## Specification-side descriptions of the scalar merge policies
-/

/-- The first non-empty string of a list (`""` when there is none). -/
def primeiroNaoVazio : List String → String
  | [] => ""
  | s :: l => if s ≠ "" then s else primeiroNaoVazio l

/-- The last non-empty string of a list (`""` when there is none). -/
def ultimoNaoVazio (l : List String) : String := primeiroNaoVazio l.reverse

/-!
## The chunker `dividir_em_chunks` (source lines 309-343)
-/

/-- The configuration fields used by the chunker (dataclass `Config`,
source lines 46-65; the remaining fields are credentials and host names
that the modelled functions do not read).  `carregar_config` never
overrides these three fields, so every run uses the defaults. -/
structure Config where
  chunk_size_local : ℕ := 6000
  chunk_size_cloud : ℕ := 50000
  chars_per_token : ℚ := 4

/-- The cloud backend identifiers (source line 312). -/
def modosCloud : List String := ["google", "anthropic", "openai", "xai"]

/-- The budget `int(chunk_size * config.chars_per_token)` with the
mode-dependent chunk size (source lines 311-317). -/
def max_chars (config : Config) (modo : String) : ℤ :=
  let chunk_size := if modosCloud.contains modo then config.chunk_size_cloud
                    else config.chunk_size_local
  pyTrunc ((chunk_size : ℚ) * config.chars_per_token)

/-- Recognises the page marker `\n[PÁGINA \d+]\n` at the head of the
list and returns the remainder after it. -/
def marcadorPagina (s : List Char) : Option (List Char) :=
  match s with
  | '\n' :: '[' :: 'P' :: 'Á' :: 'G' :: 'I' :: 'N' :: 'A' :: ' ' :: resto =>
    let ds := resto.takeWhile Char.isDigit
    if ds.isEmpty then none
    else
      match resto.drop ds.length with
      | ']' :: '\n' :: resto2 => some resto2
      | _ => none
  | _ => none

/-- Fuelled worker for `separarPaginas`; every step consumes at least one
character, so fuel `length + 1` suffices. -/
def separarPaginasF : ℕ → List Char → List Char → List (List Char)
  | 0, atual, resto => [atual.reverse ++ resto]
  | fuel + 1, atual, s =>
    match marcadorPagina s with
    | some resto => atual.reverse :: separarPaginasF fuel [] resto
    | none =>
      match s with
      | [] => [atual.reverse]
      | c :: t => separarPaginasF fuel (c :: atual) t

/-- The page split on the marker pattern (source line 321). -/
def separarPaginas (texto : List Char) : List (List Char) :=
  separarPaginasF (texto.length + 1) [] texto

/-- The filtered page list `[p for p in paginas if p.strip()]`
(source line 322). -/
def paginasDe (texto : List Char) : List (List Char) :=
  (separarPaginas texto).filter fun p => !(stripL p).isEmpty

/-- Fuelled worker for `fatiar`; each step consumes `maxC ≥ 1`
characters, so fuel `length` suffices. -/
def fatiarF (maxC : ℕ) : ℕ → List Char → List (List Char)
  | 0, _ => []
  | _ + 1, [] => []
  | fuel + 1, c :: t => (c :: t).take maxC :: fatiarF maxC fuel ((c :: t).drop maxC)

/-- The hard split `[pagina[i:i+max_chars] for i in range(0, len(pagina), max_chars)]`
of an oversized page (source lines 332-336).  The Python `range` raises
for `max_chars = 0`; the model is only used under `0 < max_chars`. -/
def fatiar (maxC : ℕ) (p : List Char) : List (List Char) := fatiarF maxC p.length p

/-- Flushing the accumulator at a chunk boundary:
`if chunk_atual.strip(): chunks.append(chunk_atual.strip())`. -/
def descarrega (st : List (List Char) × List Char) : List (List Char) :=
  if (stripL st.2).isEmpty then st.1 else st.1 ++ [stripL st.2]

/-- One iteration of the page-packing loop of `dividir_em_chunks`
(source lines 324-338): the state is `(chunks, chunk_atual)`. -/
def passoChunk (maxC : ℤ) (st : List (List Char) × List Char) (pagina : List Char) :
    List (List Char) × List Char :=
  if ((st.2.length : ℤ) + pagina.length < maxC) then (st.1, st.2 ++ '\n' :: pagina)
  else if maxC < (pagina.length : ℤ) then (descarrega st ++ fatiar maxC.toNat pagina, [])
  else (descarrega st, pagina)

/-- Source `dividir_em_chunks` (lines 309-343). -/
def dividir_em_chunks (texto : String) (config : Config) (modo : String) : List String :=
  let maxC := max_chars config modo
  let st := (paginasDe texto.data).foldl (passoChunk maxC) ([], [])
  if (descarrega st).isEmpty then [⟨texto.data.take maxC.toNat⟩]
  else (descarrega st).map fun c => ⟨c⟩

/-!
## The Google backend call `chamar_google` (source lines 756-849)

Wall-clock time is modelled by an explicit clock inside the limiter
state (`time.time()` reads it, `time.sleep(d)` advances it by `d`), and
the network is modelled by an oracle assigning an outcome to each issued
request.  The missing-API-key `ValueError` (a fatal configuration error
raised before any request) is outside the modelled path.
-/

/-- Outcome of one HTTP request to the Gemini endpoint. -/
inductive GResp : Type
  | ok (texto : String)
  | vazio
  | rate429
  | badRequest
  | serverErr
  | timeout
deriving DecidableEq, Repr

/-- The module-level limiter state `_google_last_request`,
`_google_request_count`, `_google_minute_start`, plus the model clock. -/
structure GSt where
  clock : ℚ
  lastRequest : ℚ
  requestCount : ℕ
  minuteStart : ℚ
deriving DecidableEq, Repr

/-- The pre-request section of `chamar_google` (source lines 769-798):
roll the 60-second window, force a wait at the near-limit threshold of
14 requests (resetting the counter), enforce the 4-second minimum
spacing, then record the request time and bump the counter. -/
def preRequest (σ : GSt) : GSt :=
  let current := σ.clock
  let cm0 := if current - σ.minuteStart > 60 then ((0 : ℕ), current)
             else (σ.requestCount, σ.minuteStart)
  let wcm :=
    if 14 ≤ cm0.1 then
      let espera := 60 - (current - cm0.2) + 1
      if 0 < espera then (current + espera, (0 : ℕ), current + espera)
      else (current, cm0.1, cm0.2)
    else (current, cm0.1, cm0.2)
  let desdeUltima := current - σ.lastRequest
  let clock2 := if desdeUltima < 4 ∧ 0 < σ.lastRequest then wcm.1 + (4 - desdeUltima)
                else wcm.1
  { clock := clock2, lastRequest := clock2, requestCount := wcm.2.1 + 1,
    minuteStart := wcm.2.2 }

/-- The body of `chamar_google` with its recursion-on-retry unrolled on
fuel.  The recursion depth is bounded by the retry counters (`< 3` for
429, `< 2` for timeout), so fuel 4 makes the fuel-exhausted branch
unreachable.  Returns the reply text, the final state and the number of
requests issued. -/
def chamarGoogleGo (oracle : ℕ → GResp) : ℕ → ℕ → ℕ → GSt → String × GSt × ℕ
  | 0, _, tentativa, σ => ("", σ, tentativa)
  | fuel + 1, retry_count, tentativa, σ =>
    let σ1 := preRequest σ
    match oracle tentativa with
    | .ok t => (t, σ1, tentativa + 1)
    | .vazio => ("", σ1, tentativa + 1)
    | .rate429 =>
      if retry_count < 3 then
        let σ2 : GSt :=
          { clock := σ1.clock + 60, lastRequest := σ1.lastRequest,
            requestCount := 0, minuteStart := σ1.clock + 60 }
        chamarGoogleGo oracle fuel (retry_count + 1) (tentativa + 1) σ2
      else ("", σ1, tentativa + 1)
    | .badRequest => ("", σ1, tentativa + 1)
    | .serverErr => ("", σ1, tentativa + 1)
    | .timeout =>
      if retry_count < 2 then chamarGoogleGo oracle fuel (retry_count + 1) (tentativa + 1) σ1
      else ("", σ1, tentativa + 1)

/-- The call `chamar_google(prompt, config)` with the default `retry_count = 0`. -/
def chamar_google (oracle : ℕ → GResp) (σ : GSt) : String × GSt × ℕ :=
  chamarGoogleGo oracle 4 0 0 σ

/-- The per-chunk loop of `processar_processo` (source lines 1087-1141),
with the JSON extraction-and-repair of a non-empty reply abstracted as a
parameter: an empty reply (the value `chamar_google` returns once its
retry bound is exhausted) contributes nothing and the loop goes on to
the next chunk. -/
def extrairDeRespostas (parse : String → Option Extracao) : List String → List Extracao
  | [] => []
  | r :: rs =>
    if r = "" then extrairDeRespostas parse rs
    else
      match parse r with
      | some e => e :: extrairDeRespostas parse rs
      | none => extrairDeRespostas parse rs

/-!
## Auxiliary definitions for the claim instances
-/

/-- The invariant of the page-packing loop: every emitted chunk and the
current accumulator stay within the budget. -/
def chunkBound (maxC : ℤ) (st : List (List Char) × List Char) : Prop :=
  (∀ c ∈ st.1, (c.length : ℤ) ≤ maxC) ∧ ((st.2.length : ℤ) ≤ maxC)

/-- Does the name contain no corporate-suffix occurrence? -/
def semSufixo (y : String) : Bool := sufixos.all fun suf => !(contemSub suf.data y.data)

/-- An extraction whose two party names normalise to the same key. -/
def extDuplicada : Extracao :=
  { partes := [⟨"Empresa ABC Ltda.", "Autor"⟩, ⟨"EMPRESA ABC LTDA", "Autor"⟩] }

/-- The noise event of the specification's example. -/
def eventoRuido : Hist := ⟨"01/02/2023", "Certidão", some "Documento assinado eletronicamente"⟩

/-- An extraction carrying only the noise event. -/
def extRuidosa : Extracao := { historico_detalhado := [eventoRuido] }

/-- An extraction with a substantive event. -/
def extEventoBom : Extracao :=
  { historico_detalhado := [⟨"15/01/2023", "Sentença", some "Sentença proferida nos autos"⟩] }

/-- First extraction of the status example. -/
def extStatus1 : Extracao :=
  { objeto_acao := "Cobrança de dívida", status_atual := "Fase de citação" }

/-- Second extraction of the status example. -/
def extStatus2 : Extracao := { status_atual := "Fase de sentença" }

/-- The first monetary item of the specification's dedup example. -/
def valorCausa1 : Valor := ⟨"Valor da causa", "R$ 10.000,00"⟩

/-- The second monetary item of the specification's dedup example
(decimal point in the United States convention). -/
def valorCausa2 : Valor := ⟨"Valor da causa danos", "R$10000.00"⟩

/-- The second monetary item written with the Brazilian decimal comma. -/
def valorCausa2BR : Valor := ⟨"Valor da causa danos", "R$10000,00"⟩

/-- An extraction with one decision. -/
def extDecisao : Extracao :=
  { decisoes := [⟨"01/01/2023", "Sentença", "Pedido julgado procedente"⟩] }

/-- An extraction with only a subject of action. -/
def extObjeto : Extracao := { objeto_acao := "Ação de cobrança" }

/-- The literal placeholder party `null`. -/
def parteNull : Parte := ⟨"null", "Réu"⟩

/-- An extraction whose only party is the placeholder `null`. -/
def extParteNull : Extracao := { partes := [parteNull] }

/-- An extraction with an ordinary party. -/
def extParteBoa : Extracao := { partes := [⟨"Maria da Silva", "Autor"⟩] }

/-!
## Lemmas about the first-occurrence filter
-/

section DedupLemmas

variable {α κ : Type} [DecidableEq κ] {g : α → Bool} {k : α → κ} {b : α} {t : List α}
variable {vistos : List κ}

theorem dedupGoS_nil : dedupGoS g k vistos ([] : List α) = ([], vistos) := rfl

theorem dedupGoS_cons_pos (hc : g b = true ∧ k b ∉ vistos) :
    dedupGoS g k vistos (b :: t) =
      (b :: (dedupGoS g k (k b :: vistos) t).1, (dedupGoS g k (k b :: vistos) t).2) := by
  rw [dedupGoS, if_pos hc]

theorem dedupGoS_cons_pos_fst (hc : g b = true ∧ k b ∉ vistos) :
    (dedupGoS g k vistos (b :: t)).1 = b :: (dedupGoS g k (k b :: vistos) t).1 := by
  rw [dedupGoS_cons_pos hc]

theorem dedupGoS_cons_pos_snd (hc : g b = true ∧ k b ∉ vistos) :
    (dedupGoS g k vistos (b :: t)).2 = (dedupGoS g k (k b :: vistos) t).2 := by
  rw [dedupGoS_cons_pos hc]

theorem dedupGoS_cons_neg (hc : ¬(g b = true ∧ k b ∉ vistos)) :
    dedupGoS g k vistos (b :: t) = dedupGoS g k vistos t := by
  rw [dedupGoS, if_neg hc]

theorem dedupGoS_mem {l : List α} {a : α}
    (h : a ∈ (dedupGoS g k vistos l).1) : a ∈ l := by
  induction l generalizing vistos with
  | nil => simp [dedupGoS_nil] at h
  | cons b t ih =>
    by_cases hc : g b = true ∧ k b ∉ vistos
    · rw [dedupGoS_cons_pos_fst hc] at h
      rcases List.mem_cons.1 h with h | h
      · exact h ▸ List.mem_cons_self b t
      · exact List.mem_cons_of_mem b (ih h)
    · rw [dedupGoS_cons_neg hc] at h
      exact List.mem_cons_of_mem b (ih h)

theorem dedupGoS_guard {l : List α} {a : α}
    (h : a ∈ (dedupGoS g k vistos l).1) : g a = true := by
  induction l generalizing vistos with
  | nil => simp [dedupGoS_nil] at h
  | cons b t ih =>
    by_cases hc : g b = true ∧ k b ∉ vistos
    · rw [dedupGoS_cons_pos_fst hc] at h
      rcases List.mem_cons.1 h with h | h
      · exact h ▸ hc.1
      · exact ih h
    · rw [dedupGoS_cons_neg hc] at h
      exact ih h

theorem dedupGoS_chaves {l : List α} :
    ((dedupGoS g k vistos l).1.map k).Nodup ∧
      ∀ a ∈ (dedupGoS g k vistos l).1, k a ∉ vistos := by
  induction l generalizing vistos with
  | nil => simp [dedupGoS_nil]
  | cons b t ih =>
    by_cases hc : g b = true ∧ k b ∉ vistos
    · rw [dedupGoS_cons_pos_fst hc]
      obtain ⟨ihn, ihs⟩ := @ih (k b :: vistos)
      refine ⟨List.nodup_cons.2 ⟨fun hmem => ?_, ihn⟩, ?_⟩
      · obtain ⟨a, ha, hka⟩ := List.mem_map.1 hmem
        exact ihs a ha (hka ▸ List.mem_cons_self _ _)
      · intro a ha
        rcases List.mem_cons.1 ha with h | ha
        · exact h ▸ hc.2
        · exact fun hmem => ihs a ha (List.mem_cons_of_mem _ hmem)
    · rw [dedupGoS_cons_neg hc]
      exact ih

theorem dedupGoS_fixpoint {l : List α}
    (hg : ∀ a ∈ l, g a = true) (hn : (l.map k).Nodup)
    (hs : ∀ a ∈ l, k a ∉ vistos) : (dedupGoS g k vistos l).1 = l := by
  induction l generalizing vistos with
  | nil => simp [dedupGoS_nil]
  | cons b t ih =>
    rw [dedupGoS_cons_pos_fst ⟨hg b (List.mem_cons_self _ _), hs b (List.mem_cons_self _ _)⟩]
    simp only [List.map_cons, List.nodup_cons] at hn
    congr 1
    refine ih (fun a ha => hg a (List.mem_cons_of_mem _ ha)) hn.2 ?_
    intro a ha hmem
    rcases List.mem_cons.1 hmem with hmem | hmem
    · exact hn.1 (hmem ▸ List.mem_map_of_mem k ha)
    · exact hs a (List.mem_cons_of_mem _ ha) hmem

theorem dedupGoS_seen_mono {l : List α} {x : κ}
    (h : x ∈ vistos) : x ∈ (dedupGoS g k vistos l).2 := by
  induction l generalizing vistos with
  | nil => simpa [dedupGoS_nil] using h
  | cons b t ih =>
    by_cases hc : g b = true ∧ k b ∉ vistos
    · rw [dedupGoS_cons_pos_snd hc]
      exact ih (List.mem_cons_of_mem _ h)
    · rw [dedupGoS_cons_neg hc]
      exact ih h

theorem dedupGoS_chave_vista {l : List α} {a : α}
    (ha : a ∈ l) (hg : g a = true) : k a ∈ (dedupGoS g k vistos l).2 := by
  induction l generalizing vistos with
  | nil => cases ha
  | cons b t ih =>
    by_cases hc : g b = true ∧ k b ∉ vistos
    · rw [dedupGoS_cons_pos_snd hc]
      rcases List.mem_cons.1 ha with h | ha
      · exact h ▸ dedupGoS_seen_mono (List.mem_cons_self _ _)
      · exact ih ha
    · rw [dedupGoS_cons_neg hc]
      rcases List.mem_cons.1 ha with h | ha
      · rcases Decidable.not_and_iff_or_not.1 hc with hbad | hbad
        · exact absurd (h ▸ hg) hbad
        · exact h ▸ dedupGoS_seen_mono (Decidable.not_not.1 hbad)
      · exact ih ha

theorem dedupGoS_vazio {l : List α}
    (h : ∀ a ∈ l, k a ∈ vistos) : (dedupGoS g k vistos l).1 = [] := by
  induction l generalizing vistos with
  | nil => simp [dedupGoS_nil]
  | cons b t ih =>
    rw [dedupGoS_cons_neg (by
      intro hc
      exact hc.2 (h b (List.mem_cons_self _ _)))]
    exact ih fun a ha => h a (List.mem_cons_of_mem _ ha)

theorem dedupGoS_append {l₁ l₂ : List α} :
    (dedupGoS g k vistos (l₁ ++ l₂)).1 =
      (dedupGoS g k vistos l₁).1 ++ (dedupGoS g k (dedupGoS g k vistos l₁).2 l₂).1 := by
  induction l₁ generalizing vistos with
  | nil => simp [dedupGoS_nil]
  | cons b t ih =>
    by_cases hc : g b = true ∧ k b ∉ vistos
    · rw [List.cons_append, dedupGoS_cons_pos hc, dedupGoS_cons_pos hc]
      simpa using ih
    · rw [List.cons_append, dedupGoS_cons_neg hc, dedupGoS_cons_neg hc]
      exact ih

end DedupLemmas

/-!
## Lemmas about stable sorting and filtering
-/

section SortLemmas

variable {β : Type} {r : β → β → Prop} [DecidableRel r] [IsTotal β r] [IsTrans β r]
variable {p : β → Bool}

omit [IsTotal β r] [IsTrans β r] in
theorem orderedInsert_of_all {a : β} {m : List β} (h : ∀ x ∈ m, r a x) :
    List.orderedInsert r a m = a :: m := by
  cases m with
  | nil => rfl
  | cons c t =>
    rw [List.orderedInsert, if_pos (h c (List.mem_cons_self _ _))]

omit [IsTotal β r] in
theorem filter_orderedInsert_sorted {a : β} {l : List β} (hl : l.Sorted r) :
    (List.orderedInsert r a l).filter p =
      if p a then List.orderedInsert r a (l.filter p) else l.filter p := by
  induction l with
  | nil =>
    rw [List.orderedInsert_nil, List.filter_cons]
    split <;> simp
  | cons b t ih =>
    obtain ⟨hbt, hts⟩ := List.sorted_cons.1 hl
    by_cases hrab : r a b
    · rw [List.orderedInsert, if_pos hrab, List.filter_cons]
      by_cases hpa : p a
      · rw [if_pos hpa, if_pos hpa]
        refine (orderedInsert_of_all ?_).symm
        intro x hx
        rcases List.mem_filter.1 hx with ⟨hx, _⟩
        rcases List.mem_cons.1 hx with h | h
        · exact h ▸ hrab
        · exact Trans.trans hrab (hbt x h)
      · rw [if_neg (by simpa using hpa), if_neg hpa]
    · rw [List.orderedInsert, if_neg hrab, List.filter_cons, List.filter_cons]
      by_cases hpb : p b
      · rw [if_pos hpb, if_pos hpb, ih hts]
        by_cases hpa : p a
        · rw [if_pos hpa, if_pos hpa, List.orderedInsert, if_neg hrab]
        · rw [if_neg hpa, if_neg hpa]
      · rw [if_neg hpb, if_neg hpb, ih hts]

theorem filter_insertionSort (l : List β) :
    (List.insertionSort r l).filter p = List.insertionSort r (l.filter p) := by
  induction l with
  | nil => rfl
  | cons a t ih =>
    rw [List.insertionSort, filter_orderedInsert_sorted (List.sorted_insertionSort r t),
      List.filter_cons]
    by_cases hpa : p a
    · rw [if_pos hpa, if_pos hpa, ih, List.insertionSort]
    · rw [if_neg hpa, if_neg hpa, ih]

theorem insertionSort_idem (l : List β) :
    List.insertionSort r (List.insertionSort r l) = List.insertionSort r l :=
  (List.sorted_insertionSort r l).insertionSort_eq

theorem filter_bool_append_perm (p : β → Bool) (l : List β) :
    List.Perm (l.filter p ++ l.filter fun a => !p a) l := by
  induction l with
  | nil => simp
  | cons a t ih =>
    by_cases hpa : p a
    · rw [List.filter_cons_of_pos hpa, List.filter_cons_of_neg (by simpa using hpa)]
      exact (ih.cons a)
    · rw [List.filter_cons_of_neg hpa, List.filter_cons_of_pos (by simpa using hpa)]
      exact List.perm_middle.trans (ih.cons a)

end SortLemmas

/-!
## Lemmas about re-merging a merged record
-/

theorem concatMapL_um {α β : Type} (f : α → List β) (a : α) : concatMapL f [a] = f a := by
  simp [concatMapL]

theorem concatMapL_dois {α β : Type} (f : α → List β) (a b : α) :
    concatMapL f [a, b] = f a ++ f b := by
  simp [concatMapL]

theorem dedupGoS_idem {α κ : Type} [DecidableEq κ] {g : α → Bool} {k : α → κ} {l : List α} :
    (dedupGoS g k [] (dedupGoS g k [] l).1).1 = (dedupGoS g k [] l).1 :=
  dedupGoS_fixpoint (fun _ ha => dedupGoS_guard ha) (dedupGoS_chaves).1 (by simp)

theorem dedupGoS_dobro {α κ : Type} [DecidableEq κ] {g : α → Bool} {k : α → κ} {l : List α} :
    (dedupGoS g k [] ((dedupGoS g k [] l).1 ++ (dedupGoS g k [] l).1)).1 =
      (dedupGoS g k [] l).1 := by
  rw [dedupGoS_append, dedupGoS_idem,
    dedupGoS_vazio (fun a ha => dedupGoS_chave_vista ha (dedupGoS_guard ha)),
    List.append_nil]

theorem passoObjeto_vazio (e : Extracao) : passoObjeto "" e = e.objeto_acao := by
  by_cases h : e.objeto_acao = "" <;> simp [passoObjeto, h]

theorem passoObjeto_fix (e : Extracao) : passoObjeto e.objeto_acao e = e.objeto_acao := by
  rw [passoObjeto, if_neg fun hc => hc.2 hc.1]

theorem passoStatus_vazio (e : Extracao) : passoStatus "" e = e.status_atual := by
  by_cases h : e.status_atual = "" <;> simp [passoStatus, h]

theorem passoStatus_fix (e : Extracao) : passoStatus e.status_atual e = e.status_atual := by
  by_cases h : e.status_atual = "" <;> simp [passoStatus, h]

theorem comecaCom_refl (s : List Char) : comecaCom s s = true := by
  induction s with
  | nil => rfl
  | cons c t ih => simp [comecaCom, ih]

theorem contemSub_refl (s : List Char) : contemSub s s = true := by
  cases s with
  | nil => rfl
  | cons c t => simp [contemSub, comecaCom_refl]

theorem contemSub_nil (p : List Char) : contemSub p [] = p.isEmpty := rfl

theorem data_ne_nil {s : String} (h : s ≠ "") : s.data.isEmpty = false := by
  cases s with
  | mk d =>
    cases d with
    | nil => exact absurd rfl h
    | cons c t => rfl

theorem passoResumo_vazio (e : Extracao) : passoResumo "" e = e.resumo_fatos := by
  by_cases h : e.resumo_fatos = ""
  · simp [passoResumo, h]
  · have hc : contemSub e.resumo_fatos.data ("" : String).data = false := by
      rw [show ("" : String).data = [] from rfl, contemSub_nil, data_ne_nil h]
    rw [passoResumo, if_pos ⟨h, hc⟩, if_neg (by simp)]

theorem passoResumo_fix (e : Extracao) : passoResumo e.resumo_fatos e = e.resumo_fatos := by
  by_cases h : e.resumo_fatos = ""
  · simp [passoResumo, h]
  · rw [passoResumo, if_neg fun hc => by simpa [contemSub_refl] using hc.2]

theorem sorted_ordenarPorData (l : List Hist) : (ordenarPorData l).Sorted histRel :=
  List.sorted_insertionSort histRel l

theorem ordenarPorData_idem (l : List Hist) :
    ordenarPorData (ordenarPorData l) = ordenarPorData l :=
  (sorted_ordenarPorData l).insertionSort_eq

theorem mem_ordenarPorData {h : Hist} {l : List Hist} :
    h ∈ ordenarPorData l ↔ h ∈ l :=
  (List.perm_insertionSort histRel l).mem_iff

theorem keptHist_guard {L : List Extracao} {h : Hist} (hm : h ∈ keptHist L) :
    histGuard h = true :=
  dedupGoS_guard hm

theorem mem_histProcessualDe {L : List Extracao} {h : Hist}
    (hm : h ∈ histProcessualDe L) : h ∈ keptHist L ∧ ehFatico h = false := by
  rw [histProcessualDe, mem_ordenarPorData] at hm
  obtain ⟨h1, h2⟩ := List.mem_filter.1 hm
  exact ⟨h1, by simpa using h2⟩

theorem mem_histFaticoDe {L : List Extracao} {h : Hist}
    (hm : h ∈ histFaticoDe L) : h ∈ keptHist L ∧ ehFatico h = true := by
  rw [histFaticoDe, mem_ordenarPorData] at hm
  exact List.mem_filter.1 hm

/-- The `historico_detalhado` of a merged record is a permutation of the
kept history entries. -/
theorem perm_detalhado_kept (L : List Extracao) :
    List.Perm (ordenarPorData (histProcessualDe L ++ histFaticoDe L)) (keptHist L) := by
  refine (List.perm_insertionSort histRel _).trans ?_
  refine (List.Perm.append (List.perm_insertionSort histRel _)
    (List.perm_insertionSort histRel _)).trans ?_
  have hcongr : (keptHist L).filter ehFatico =
      (keptHist L).filter fun a => !(!ehFatico a) := by
    refine (List.filter_congr ?_).symm
    intro a _
    simp
  rw [hcongr]
  exact filter_bool_append_perm (fun h => !ehFatico h) (keptHist L)

/-- The history dedup leaves the merged `historico_detalhado` unchanged. -/
theorem dedup_fix_detalhado (L : List Extracao) :
    (dedupGoS histGuard histChave []
      (ordenarPorData (histProcessualDe L ++ histFaticoDe L))).1 =
      ordenarPorData (histProcessualDe L ++ histFaticoDe L) := by
  refine dedupGoS_fixpoint ?_ ?_ (by simp)
  · intro h hm
    exact keptHist_guard ((perm_detalhado_kept L).mem_iff.1 hm)
  · exact ((perm_detalhado_kept L).map histChave).nodup_iff.2 (dedupGoS_chaves).1

/-- Feeding the merged `historico_detalhado` back through the history
dedup keeps every entry. -/
theorem keptHist_remerge (L : List Extracao) :
    keptHist [mesclar_extracoes L] =
      ordenarPorData (histProcessualDe L ++ histFaticoDe L) := by
  show (dedupGoS histGuard histChave []
    (concatMapL Extracao.historico_detalhado [mesclar_extracoes L])).1 = _
  rw [concatMapL_um]
  exact dedup_fix_detalhado L

/-- The two copies of the merged `historico_detalhado` dedup to one. -/
theorem keptHist_remerge_dois (L : List Extracao) :
    keptHist [mesclar_extracoes L, mesclar_extracoes L] =
      ordenarPorData (histProcessualDe L ++ histFaticoDe L) := by
  show (dedupGoS histGuard histChave []
    (concatMapL Extracao.historico_detalhado
      [mesclar_extracoes L, mesclar_extracoes L])).1 = _
  rw [concatMapL_dois]
  show (dedupGoS histGuard histChave []
    (ordenarPorData (histProcessualDe L ++ histFaticoDe L) ++
      ordenarPorData (histProcessualDe L ++ histFaticoDe L))).1 = _
  rw [dedupGoS_append, dedup_fix_detalhado L,
    dedupGoS_vazio (fun a ha => dedupGoS_chave_vista ha
      (keptHist_guard ((perm_detalhado_kept L).mem_iff.1 ha))),
    List.append_nil]

/-- Splitting and re-sorting the merged `historico_detalhado` recovers
the processual part. -/
theorem ordenar_filtro_proc (L : List Extracao) :
    ordenarPorData ((ordenarPorData (histProcessualDe L ++ histFaticoDe L)).filter
      fun h => !ehFatico h) = histProcessualDe L := by
  show List.insertionSort histRel
    ((List.insertionSort histRel (histProcessualDe L ++ histFaticoDe L)).filter
      fun h => !ehFatico h) = histProcessualDe L
  rw [filter_insertionSort, List.filter_append,
    List.filter_eq_self.2 (fun h hm => by simpa using (mem_histProcessualDe hm).2),
    List.filter_eq_nil_iff.2 (fun h hm => by simp [(mem_histFaticoDe hm).2]),
    List.append_nil, insertionSort_idem]
  exact (sorted_ordenarPorData _).insertionSort_eq

/-- Splitting and re-sorting the merged `historico_detalhado` recovers
the factual part. -/
theorem ordenar_filtro_fatico (L : List Extracao) :
    ordenarPorData ((ordenarPorData (histProcessualDe L ++ histFaticoDe L)).filter
      ehFatico) = histFaticoDe L := by
  show List.insertionSort histRel
    ((List.insertionSort histRel (histProcessualDe L ++ histFaticoDe L)).filter
      ehFatico) = histFaticoDe L
  rw [filter_insertionSort, List.filter_append,
    List.filter_eq_nil_iff.2 (fun h hm => by simp [(mem_histProcessualDe hm).2]),
    List.filter_eq_self.2 (fun h hm => (mem_histFaticoDe hm).2),
    List.nil_append, insertionSort_idem]
  exact (sorted_ordenarPorData _).insertionSort_eq

theorem histProcessualDe_remerge (L : List Extracao) :
    histProcessualDe [mesclar_extracoes L] = histProcessualDe L := by
  rw [histProcessualDe, keptHist_remerge]
  exact ordenar_filtro_proc L

theorem histFaticoDe_remerge (L : List Extracao) :
    histFaticoDe [mesclar_extracoes L] = histFaticoDe L := by
  rw [histFaticoDe, keptHist_remerge]
  exact ordenar_filtro_fatico L

theorem histProcessualDe_dobro (L : List Extracao) :
    histProcessualDe [mesclar_extracoes L, mesclar_extracoes L] = histProcessualDe L := by
  rw [histProcessualDe, keptHist_remerge_dois]
  exact ordenar_filtro_proc L

theorem histFaticoDe_dobro (L : List Extracao) :
    histFaticoDe [mesclar_extracoes L, mesclar_extracoes L] = histFaticoDe L := by
  rw [histFaticoDe, keptHist_remerge_dois]
  exact ordenar_filtro_fatico L

/-- Re-merging a merged record as a singleton list reproduces it. -/
theorem mesclar_remerge (L : List Extracao) :
    mesclar_extracoes [mesclar_extracoes L] = mesclar_extracoes L := by
  ext1
  · show (dedupGoS parteGuard parteChave []
      (concatMapL Extracao.partes [mesclar_extracoes L])).1 = _
    rw [concatMapL_um]
    exact dedupGoS_idem
  · show List.foldl passoObjeto "" [mesclar_extracoes L] = _
    show passoObjeto "" (mesclar_extracoes L) = _
    rw [passoObjeto_vazio]
  · show List.foldl passoResumo "" [mesclar_extracoes L] = _
    show passoResumo "" (mesclar_extracoes L) = _
    rw [passoResumo_vazio]
  · show deduplicar_valores
      (concatMapL Extracao.valores_relevantes [mesclar_extracoes L]) = _
    rw [concatMapL_um]
    exact dedupGoS_idem
  · show (dedupGoS pedidoGuard pedidoChave []
      (concatMapL Extracao.pedidos [mesclar_extracoes L])).1 = _
    rw [concatMapL_um]
    exact dedupGoS_idem
  · show concatMapL Extracao.decisoes [mesclar_extracoes L] = _
    rw [concatMapL_um]
  · show (dedupGoS pedidoGuard pedidoChave []
      (concatMapL Extracao.teses_autor [mesclar_extracoes L])).1 = _
    rw [concatMapL_um]
    exact dedupGoS_idem
  · show (dedupGoS pedidoGuard pedidoChave []
      (concatMapL Extracao.teses_reu [mesclar_extracoes L])).1 = _
    rw [concatMapL_um]
    exact dedupGoS_idem
  · show (dedupGoS docGuard docTipo []
      (concatMapL Extracao.documentos_importantes [mesclar_extracoes L])).1 = _
    rw [concatMapL_um]
    exact dedupGoS_idem
  · show ordenarPorData (histProcessualDe [mesclar_extracoes L] ++
      histFaticoDe [mesclar_extracoes L]) = _
    rw [histProcessualDe_remerge, histFaticoDe_remerge]
    rfl
  · exact histProcessualDe_remerge L
  · exact histFaticoDe_remerge L
  · show List.foldl passoStatus "" [mesclar_extracoes L] = _
    show passoStatus "" (mesclar_extracoes L) = _
    rw [passoStatus_vazio]

/-- Merging a merged record with itself reproduces it on every field
except `decisoes`, which the source appends without deduplication; under
the extra hypothesis that the merged record has no decisions, the merge
of the pair is the identity. -/
theorem mesclar_dobro (L : List Extracao)
    (hdec : (mesclar_extracoes L).decisoes = []) :
    mesclar_extracoes [mesclar_extracoes L, mesclar_extracoes L] = mesclar_extracoes L := by
  ext1
  · show (dedupGoS parteGuard parteChave []
      (concatMapL Extracao.partes [mesclar_extracoes L, mesclar_extracoes L])).1 = _
    rw [concatMapL_dois]
    exact dedupGoS_dobro
  · show List.foldl passoObjeto "" [mesclar_extracoes L, mesclar_extracoes L] = _
    show passoObjeto (passoObjeto "" (mesclar_extracoes L)) (mesclar_extracoes L) = _
    rw [passoObjeto_vazio, passoObjeto_fix]
  · show List.foldl passoResumo "" [mesclar_extracoes L, mesclar_extracoes L] = _
    show passoResumo (passoResumo "" (mesclar_extracoes L)) (mesclar_extracoes L) = _
    rw [passoResumo_vazio, passoResumo_fix]
  · show deduplicar_valores
      (concatMapL Extracao.valores_relevantes [mesclar_extracoes L, mesclar_extracoes L]) = _
    rw [concatMapL_dois]
    exact dedupGoS_dobro
  · show (dedupGoS pedidoGuard pedidoChave []
      (concatMapL Extracao.pedidos [mesclar_extracoes L, mesclar_extracoes L])).1 = _
    rw [concatMapL_dois]
    exact dedupGoS_dobro
  · show concatMapL Extracao.decisoes [mesclar_extracoes L, mesclar_extracoes L] = _
    rw [concatMapL_dois, hdec]
    rfl
  · show (dedupGoS pedidoGuard pedidoChave []
      (concatMapL Extracao.teses_autor [mesclar_extracoes L, mesclar_extracoes L])).1 = _
    rw [concatMapL_dois]
    exact dedupGoS_dobro
  · show (dedupGoS pedidoGuard pedidoChave []
      (concatMapL Extracao.teses_reu [mesclar_extracoes L, mesclar_extracoes L])).1 = _
    rw [concatMapL_dois]
    exact dedupGoS_dobro
  · show (dedupGoS docGuard docTipo []
      (concatMapL Extracao.documentos_importantes
        [mesclar_extracoes L, mesclar_extracoes L])).1 = _
    rw [concatMapL_dois]
    exact dedupGoS_dobro
  · show ordenarPorData (histProcessualDe [mesclar_extracoes L, mesclar_extracoes L] ++
      histFaticoDe [mesclar_extracoes L, mesclar_extracoes L]) = _
    rw [histProcessualDe_dobro, histFaticoDe_dobro]
    rfl
  · exact histProcessualDe_dobro L
  · exact histFaticoDe_dobro L
  · show List.foldl passoStatus "" [mesclar_extracoes L, mesclar_extracoes L] = _
    show passoStatus (passoStatus "" (mesclar_extracoes L)) (mesclar_extracoes L) = _
    rw [passoStatus_vazio, passoStatus_fix]

/-!
## The scalar merge policies as folds
-/

theorem primeiroNaoVazio_append (a b : List String) :
    primeiroNaoVazio (a ++ b) =
      if primeiroNaoVazio a = "" then primeiroNaoVazio b else primeiroNaoVazio a := by
  induction a with
  | nil => simp [primeiroNaoVazio]
  | cons s t ih =>
    by_cases hs : s = ""
    · subst hs
      show primeiroNaoVazio ("" :: (t ++ b)) = _
      rw [primeiroNaoVazio, if_neg (by simp)]
      rw [show primeiroNaoVazio ("" :: t) = primeiroNaoVazio t from by
        rw [primeiroNaoVazio, if_neg (by simp)]]
      exact ih
    · simp [primeiroNaoVazio, hs]

theorem ultimoNaoVazio_cons (x : String) (l : List String) :
    ultimoNaoVazio (x :: l) =
      if ultimoNaoVazio l = "" then (if x ≠ "" then x else "") else ultimoNaoVazio l := by
  rw [ultimoNaoVazio, List.reverse_cons, primeiroNaoVazio_append]
  rfl

theorem foldl_passoObjeto (L : List Extracao) (acc : String) :
    L.foldl passoObjeto acc =
      if acc = "" then primeiroNaoVazio (L.map Extracao.objeto_acao) else acc := by
  induction L generalizing acc with
  | nil =>
    by_cases h : acc = "" <;> simp [primeiroNaoVazio, h]
  | cons e t ih =>
    rw [List.foldl_cons, ih]
    by_cases hacc : acc = ""
    · subst hacc
      rw [passoObjeto_vazio, if_pos rfl, List.map_cons]
      by_cases he : e.objeto_acao = "" <;> simp [primeiroNaoVazio, he]
    · rw [if_neg hacc, show passoObjeto acc e = acc from by
        rw [passoObjeto, if_neg fun hc => hacc hc.1], if_neg hacc]

theorem foldl_passoStatus (L : List Extracao) (acc : String) :
    L.foldl passoStatus acc =
      if ultimoNaoVazio (L.map Extracao.status_atual) = "" then acc
      else ultimoNaoVazio (L.map Extracao.status_atual) := by
  induction L generalizing acc with
  | nil => simp [ultimoNaoVazio, primeiroNaoVazio]
  | cons e t ih =>
    rw [List.foldl_cons, ih, List.map_cons, ultimoNaoVazio_cons]
    by_cases ht : ultimoNaoVazio (t.map Extracao.status_atual) = ""
    · rw [if_pos ht, if_pos ht]
      by_cases he : e.status_atual = ""
      · rw [passoStatus, if_neg (by simpa using he)]
        simp [he]
      · rw [passoStatus, if_pos he]
        simp [he]
    · rw [if_neg ht, if_neg ht, if_neg ht]

/-!
## Chunker invariants
-/

theorem length_dropWhile_le (p : Char → Bool) (s : List Char) :
    (s.dropWhile p).length ≤ s.length := by
  induction s with
  | nil => simp
  | cons c t ih =>
    rw [List.dropWhile_cons]
    split
    · exact le_trans ih (by simp)
    · simp

theorem stripL_length_le (s : List Char) : (stripL s).length ≤ s.length := by
  rw [stripL]
  calc ((s.dropWhile ehEspaco).reverse.dropWhile ehEspaco).reverse.length
      = ((s.dropWhile ehEspaco).reverse.dropWhile ehEspaco).length :=
        List.length_reverse _
    _ ≤ (s.dropWhile ehEspaco).reverse.length := length_dropWhile_le _ _
    _ = (s.dropWhile ehEspaco).length := List.length_reverse _
    _ ≤ s.length := length_dropWhile_le _ _

theorem mem_fatiarF_length {maxC fuel : ℕ} {p c : List Char}
    (h : c ∈ fatiarF maxC fuel p) : c.length ≤ maxC := by
  induction fuel generalizing p with
  | zero => simp [fatiarF] at h
  | succ f ih =>
    cases p with
    | nil => simp [fatiarF] at h
    | cons x t =>
      rw [fatiarF] at h
      rcases List.mem_cons.1 h with h | h
      · subst h
        exact List.length_take_le maxC (x :: t)
      · exact ih h

theorem descarrega_bound {maxC : ℤ} {st : List (List Char) × List Char}
    (hst : chunkBound maxC st) : ∀ c ∈ descarrega st, (c.length : ℤ) ≤ maxC := by
  intro c hc
  rw [descarrega] at hc
  split at hc
  · exact hst.1 c hc
  · rcases List.mem_append.1 hc with hc | hc
    · exact hst.1 c hc
    · rcases List.mem_singleton.1 hc with rfl
      calc ((stripL st.2).length : ℤ) ≤ (st.2.length : ℤ) := by
            exact_mod_cast stripL_length_le st.2
        _ ≤ maxC := hst.2

theorem passoChunk_bound {maxC : ℤ} (hpos : 0 < maxC)
    {st : List (List Char) × List Char} (hst : chunkBound maxC st) (pagina : List Char) :
    chunkBound maxC (passoChunk maxC st pagina) := by
  rw [passoChunk]
  by_cases h1 : ((st.2.length : ℤ) + pagina.length < maxC)
  · rw [if_pos h1]
    refine ⟨hst.1, ?_⟩
    simp only [List.length_append, List.length_cons]
    push_cast
    omega
  · rw [if_neg h1]
    by_cases h2 : maxC < (pagina.length : ℤ)
    · rw [if_pos h2]
      refine ⟨?_, by exact_mod_cast le_of_lt hpos⟩
      intro c hc
      rcases List.mem_append.1 hc with hc | hc
      · exact descarrega_bound hst c hc
      · have h3 := mem_fatiarF_length hc
        omega
    · rw [if_neg h2]
      exact ⟨descarrega_bound hst, not_lt.1 h2⟩

theorem foldl_passoChunk_bound {maxC : ℤ} (hpos : 0 < maxC)
    (paginas : List (List Char)) {st : List (List Char) × List Char}
    (hst : chunkBound maxC st) :
    chunkBound maxC (paginas.foldl (passoChunk maxC) st) := by
  induction paginas generalizing st with
  | nil => exact hst
  | cons p t ih => exact ih (passoChunk_bound hpos hst p)

theorem dividir_em_chunks_bound (texto : String) (config : Config) (modo : String)
    (hpos : 0 < max_chars config modo) :
    dividir_em_chunks texto config modo ≠ [] ∧
      ∀ c ∈ dividir_em_chunks texto config modo,
        (c.data.length : ℤ) ≤ max_chars config modo := by
  have hinit : chunkBound (max_chars config modo) ([], []) :=
    ⟨by simp, by exact_mod_cast le_of_lt hpos⟩
  have hbound := foldl_passoChunk_bound hpos (paginasDe texto.data) hinit
  simp only [dividir_em_chunks]
  split
  · refine ⟨by simp, ?_⟩
    intro c hc
    rcases List.mem_singleton.1 hc with rfl
    have h3 := List.length_take_le (max_chars config modo).toNat texto.data
    have h4 : ({ data := List.take (max_chars config modo).toNat texto.data } : String).data =
        List.take (max_chars config modo).toNat texto.data := rfl
    rw [h4]
    omega
  next hne =>
    refine ⟨?_, ?_⟩
    · intro hmap
      rw [List.map_eq_nil_iff.1 hmap] at hne
      exact hne rfl
    · intro c hc
      rcases List.mem_map.1 hc with ⟨d, hd, rfl⟩
      exact descarrega_bound hbound d hd

theorem dividir_em_chunks_vazio (texto : String) (config : Config) (modo : String)
    (h : paginasDe texto.data = []) :
    dividir_em_chunks texto config modo =
      [⟨texto.data.take (max_chars config modo).toNat⟩] := by
  rw [dividir_em_chunks, h]
  rfl

/-!
## Character-level facts about the case and accent tables
-/

theorem lookup_mem {α β : Type} [BEq α] [LawfulBEq α] {l : List (α × β)} {a : α} {b : β}
    (h : l.lookup a = some b) : (a, b) ∈ l := by
  induction l with
  | nil => simp [List.lookup] at h
  | cons p t ih =>
    cases p with
    | mk k v =>
      rw [List.lookup] at h
      split at h
      next heq =>
        rcases Option.some_injective _ h with rfl
        have : a = k := eq_of_beq heq
        subst this
        exact List.mem_cons_self _ _
      next => exact List.mem_cons_of_mem _ (ih h)

theorem maiusculaChar_idem (c : Char) : maiusculaChar (maiusculaChar c) = maiusculaChar c := by
  cases h : tabelaMaiusculas.lookup c with
  | none =>
    have hc : maiusculaChar c = c := by rw [maiusculaChar, h]; rfl
    rw [hc]
    exact hc
  | some v =>
    have hc : maiusculaChar c = v := by rw [maiusculaChar, h]; rfl
    rw [hc]
    have hfact : tabelaMaiusculas.all (fun q => (tabelaMaiusculas.lookup q.2).isNone) = true := by
      decide
    have hnone : tabelaMaiusculas.lookup v = none :=
      Option.isNone_iff_eq_none.1 (by simpa using List.all_eq_true.1 hfact _ (lookup_mem h))
    rw [maiusculaChar, hnone]
    rfl

theorem maiusculaChar_espaco (c : Char) : ehEspaco (maiusculaChar c) = ehEspaco c := by
  cases h : tabelaMaiusculas.lookup c with
  | none =>
    have hc : maiusculaChar c = c := by rw [maiusculaChar, h]; rfl
    rw [hc]
  | some v =>
    have hc : maiusculaChar c = v := by rw [maiusculaChar, h]; rfl
    rw [hc]
    have hfact : tabelaMaiusculas.all
        (fun q => !(ehEspaco q.1) && !(ehEspaco q.2)) = true := by decide
    have hv := List.all_eq_true.1 hfact _ (lookup_mem h)
    simp only [Bool.and_eq_true, Bool.not_eq_true'] at hv
    rw [hv.1, hv.2]

theorem semAcento_fixo_saida {c d : Char} (h : d ∈ semAcentoChar c) :
    semAcentoChar d = [d] := by
  rw [semAcentoChar] at h
  split at h
  next b hb =>
    rcases List.mem_singleton.1 h with rfl
    have hmem := lookup_mem hb
    have hfact : tabelaAcentos.all (fun q => decide (semAcentoChar q.2 = [q.2])) = true := by
      decide
    simpa using List.all_eq_true.1 hfact _ hmem
  next hb =>
    split at h
    · simp at h
    next hcomb =>
      rcases List.mem_singleton.1 h with rfl
      rw [semAcentoChar, hb, if_neg hcomb]

theorem maiusculaChar_fixoAcento {c : Char} (h : semAcentoChar c = [c]) :
    semAcentoChar (maiusculaChar c) = [maiusculaChar c] := by
  rw [maiusculaChar]
  cases hl : tabelaMaiusculas.lookup c with
  | none => rw [Option.getD_none]; exact h
  | some v =>
    rw [Option.getD_some]
    have hmem := lookup_mem hl
    have hfact : tabelaMaiusculas.all (fun q =>
        !(decide (semAcentoChar q.1 = [q.1])) || decide (semAcentoChar q.2 = [q.2])) = true := by
      decide
    have hv := List.all_eq_true.1 hfact _ hmem
    simp only [Bool.or_eq_true, Bool.not_eq_true', decide_eq_false_iff_not,
      decide_eq_true_eq] at hv
    rcases hv with hv | hv
    · exact absurd h hv
    · exact hv

theorem espaco_fixoAcento {c : Char} (h : ehEspaco c = true) : semAcentoChar c = [c] := by
  simp only [ehEspaco, Bool.or_eq_true, decide_eq_true_eq] at h
  rcases h with ((((rfl | rfl) | rfl) | rfl) | rfl) | rfl <;> decide

theorem espaco_fixoMaiuscula {c : Char} (h : ehEspaco c = true) : maiusculaChar c = c := by
  simp only [ehEspaco, Bool.or_eq_true, decide_eq_true_eq] at h
  rcases h with ((((rfl | rfl) | rfl) | rfl) | rfl) | rfl <;> decide

/-!
## Character provenance through the normalisation pipeline
-/

theorem mem_dropWhile {p : Char → Bool} {s : List Char} {c : Char}
    (h : c ∈ s.dropWhile p) : c ∈ s := by
  induction s with
  | nil => simp at h
  | cons x t ih =>
    rw [List.dropWhile_cons] at h
    split at h
    · exact List.mem_cons_of_mem _ (ih h)
    · exact h

theorem mem_stripL {s : List Char} {c : Char} (h : c ∈ stripL s) : c ∈ s := by
  rw [stripL] at h
  rw [List.mem_reverse] at h
  have h2 := mem_dropWhile h
  rw [List.mem_reverse] at h2
  exact mem_dropWhile h2

theorem mem_substituirVazioF {alvo : List Char} {fuel : ℕ} {s : List Char} {c : Char}
    (h : c ∈ substituirVazioF alvo fuel s) : c ∈ s := by
  induction fuel generalizing s with
  | zero =>
    rw [substituirVazioF] at h
    exact h
  | succ f ih =>
    cases s with
    | nil => simp [substituirVazioF] at h
    | cons x t =>
      rw [substituirVazioF] at h
      split at h
      · exact List.mem_of_mem_drop (ih h)
      · rcases List.mem_cons.1 h with rfl | h
        · exact List.mem_cons_self _ _
        · exact List.mem_cons_of_mem _ (ih h)

theorem mem_substituirVazio {alvo s : List Char} {c : Char}
    (h : c ∈ substituirVazio alvo s) : c ∈ s := by
  rw [substituirVazio] at h
  split at h
  · exact h
  · exact mem_substituirVazioF h

theorem mem_foldl_substituir {sufs : List String} {s : List Char} {c : Char}
    (h : c ∈ sufs.foldl (fun acc suf => substituirVazio suf.data acc) s) : c ∈ s := by
  induction sufs generalizing s with
  | nil => simpa using h
  | cons suf t ih =>
    rw [List.foldl_cons] at h
    exact mem_substituirVazio (ih h)

theorem mem_dividirEspAux {s atual : List Char} {p : List Char} {c : Char}
    (hp : p ∈ dividirEspAux atual s) (hc : c ∈ p) : c ∈ atual ∨ c ∈ s := by
  induction s generalizing atual with
  | nil =>
    rw [dividirEspAux] at hp
    split at hp
    · simp at hp
    · rcases List.mem_singleton.1 hp with rfl
      exact Or.inl (List.mem_reverse.1 hc)
  | cons x t ih =>
    rw [dividirEspAux] at hp
    split at hp
    · split at hp
      · rcases ih hp with h | h
        · simp at h
        · exact Or.inr (List.mem_cons_of_mem _ h)
      · rcases List.mem_cons.1 hp with rfl | hp
        · exact Or.inl (List.mem_reverse.1 hc)
        · rcases ih hp with h | h
          · simp at h
          · exact Or.inr (List.mem_cons_of_mem _ h)
    · rcases ih hp with h | h
      · rcases List.mem_cons.1 h with rfl | h
        · exact Or.inr (List.mem_cons_self _ _)
        · exact Or.inl h
      · exact Or.inr (List.mem_cons_of_mem _ h)

theorem mem_juntarEspaco {ps : List (List Char)} {c : Char}
    (h : c ∈ juntarEspaco ps) : (∃ p ∈ ps, c ∈ p) ∨ c = ' ' := by
  induction ps with
  | nil => simp [juntarEspaco] at h
  | cons p t ih =>
    cases t with
    | nil =>
      rw [juntarEspaco] at h
      exact Or.inl ⟨p, List.mem_cons_self _ _, h⟩
    | cons q u =>
      rw [juntarEspaco] at h
      rcases List.mem_append.1 h with h | h
      · exact Or.inl ⟨p, List.mem_cons_self _ _, h⟩
      · rcases List.mem_cons.1 h with rfl | h
        · exact Or.inr rfl
        · rcases ih h with ⟨r, hr, hcr⟩ | h
          · exact Or.inl ⟨r, List.mem_cons_of_mem _ hr, hcr⟩
          · exact Or.inr h

theorem mem_concatMapL {α β : Type} {f : α → List β} {l : List α} {c : β}
    (h : c ∈ concatMapL f l) : ∃ a ∈ l, c ∈ f a := by
  induction l with
  | nil => simp [concatMapL] at h
  | cons x t ih =>
    rw [concatMapL] at h
    rcases List.mem_append.1 h with h | h
    · exact ⟨x, List.mem_cons_self _ _, h⟩
    · rcases ih h with ⟨a, ha, hc⟩
      exact ⟨a, List.mem_cons_of_mem _ ha, hc⟩

theorem map_fix {f : Char → Char} {s : List Char} (h : ∀ c ∈ s, f c = c) :
    s.map f = s := by
  induction s with
  | nil => rfl
  | cons x t ih =>
    rw [List.map_cons, h x (List.mem_cons_self _ _),
      ih fun c hc => h c (List.mem_cons_of_mem _ hc)]

theorem concatMapL_fix {f : Char → List Char} {s : List Char} (h : ∀ c ∈ s, f c = [c]) :
    concatMapL f s = s := by
  induction s with
  | nil => rfl
  | cons x t ih =>
    rw [concatMapL, h x (List.mem_cons_self _ _),
      ih fun c hc => h c (List.mem_cons_of_mem _ hc)]
    rfl

theorem concatMapL_append {α β : Type} (f : α → List β) (l₁ l₂ : List α) :
    concatMapL f (l₁ ++ l₂) = concatMapL f l₁ ++ concatMapL f l₂ := by
  induction l₁ with
  | nil => rfl
  | cons a t ih => rw [List.cons_append, concatMapL, concatMapL, ih, List.append_assoc]

/-!
## Structure of whitespace splitting and joining
-/

theorem dividirEspAux_pecas {s atual : List Char}
    (ha : ∀ c ∈ atual, ehEspaco c = false) :
    ∀ p ∈ dividirEspAux atual s, p ≠ [] ∧ ∀ c ∈ p, ehEspaco c = false := by
  induction s generalizing atual with
  | nil =>
    intro p hp
    rw [dividirEspAux] at hp
    split at hp
    · simp at hp
    next hne =>
      rcases List.mem_singleton.1 hp with rfl
      refine ⟨fun hnil => ?_, fun c hc => ha c (List.mem_reverse.1 hc)⟩
      rw [List.reverse_eq_nil_iff] at hnil
      rw [hnil] at hne
      simp at hne
  | cons x t ih =>
    intro p hp
    rw [dividirEspAux] at hp
    split at hp
    · split at hp
      · exact ih (by simp) p hp
      next hne =>
        rcases List.mem_cons.1 hp with rfl | hp
        · refine ⟨fun hnil => ?_, fun c hc => ha c (List.mem_reverse.1 hc)⟩
          rw [List.reverse_eq_nil_iff] at hnil
          rw [hnil] at hne
          simp at hne
        · exact ih (by simp) p hp
    next hx =>
      refine ih ?_ p hp
      intro c hc
      rcases List.mem_cons.1 hc with rfl | hc
      · simpa using hx
      · exact ha c hc

theorem dividirEspacos_pecas {s : List Char} :
    ∀ p ∈ dividirEspacos s, p ≠ [] ∧ ∀ c ∈ p, ehEspaco c = false :=
  dividirEspAux_pecas (by simp)

theorem dividirEspAux_palavra {w : List Char} (hw : ∀ c ∈ w, ehEspaco c = false) :
    ∀ (s atual : List Char),
      dividirEspAux atual (w ++ s) = dividirEspAux (w.reverse ++ atual) s := by
  induction w with
  | nil => intro s atual; simp
  | cons c ws ih =>
    intro s atual
    rw [List.cons_append, dividirEspAux,
      if_neg (by simp [hw c (List.mem_cons_self _ _)]),
      ih (fun d hd => hw d (List.mem_cons_of_mem _ hd)) s (c :: atual),
      List.reverse_cons, List.append_assoc]
    rfl

theorem dividir_juntar {ps : List (List Char)}
    (hps : ∀ p ∈ ps, p ≠ [] ∧ ∀ c ∈ p, ehEspaco c = false) :
    dividirEspacos (juntarEspaco ps) = ps := by
  induction ps with
  | nil => rfl
  | cons p t ih =>
    obtain ⟨hpne, hpws⟩ := hps p (List.mem_cons_self _ _)
    cases t with
    | nil =>
      rw [juntarEspaco, dividirEspacos]
      have h1 := dividirEspAux_palavra hpws [] []
      rw [List.append_nil, List.append_nil] at h1
      rw [h1, dividirEspAux, if_neg (by simpa using hpne)]
      rw [List.reverse_reverse]
    | cons q u =>
      rw [juntarEspaco, dividirEspacos]
      have h1 := dividirEspAux_palavra hpws (' ' :: juntarEspaco (q :: u)) []
      rw [List.append_nil] at h1
      rw [h1, dividirEspAux, if_pos (by decide),
        if_neg (by simpa using hpne), List.reverse_reverse]
      have h2 := ih fun r hr => hps r (List.mem_cons_of_mem _ hr)
      rw [dividirEspacos] at h2
      rw [h2]

theorem dividirEspAux_dropWhile (s : List Char) :
    dividirEspAux [] (s.dropWhile ehEspaco) = dividirEspAux [] s := by
  induction s with
  | nil => rfl
  | cons x t ih =>
    by_cases hx : ehEspaco x
    · rw [List.dropWhile_cons_of_pos hx, ih]
      rw [show dividirEspAux [] (x :: t) = dividirEspAux [] t from by
        rw [dividirEspAux, if_pos hx]
        simp]
    · rw [List.dropWhile_cons_of_neg hx]

theorem dividirEspAux_ws_fim {w : List Char} (hw : ∀ c ∈ w, ehEspaco c = true) :
    ∀ atual, dividirEspAux atual w = if atual.isEmpty then [] else [atual.reverse] := by
  induction w with
  | nil => intro atual; rfl
  | cons c ws ih =>
    intro atual
    rw [dividirEspAux, if_pos (hw c (List.mem_cons_self _ _))]
    by_cases ha : atual.isEmpty
    · rw [if_pos ha, if_pos ha, ih (fun d hd => hw d (List.mem_cons_of_mem _ hd)) []]
      rfl
    · rw [if_neg ha, if_neg ha, ih (fun d hd => hw d (List.mem_cons_of_mem _ hd)) []]
      rfl

theorem dividirEspAux_append_ws {w : List Char} (hw : ∀ c ∈ w, ehEspaco c = true) :
    ∀ (s atual : List Char), dividirEspAux atual (s ++ w) = dividirEspAux atual s := by
  intro s
  induction s with
  | nil =>
    intro atual
    rw [List.nil_append, dividirEspAux_ws_fim hw atual]
    rfl
  | cons x t ih =>
    intro atual
    rw [List.cons_append, dividirEspAux, dividirEspAux]
    by_cases hx : ehEspaco x
    · rw [if_pos hx, if_pos hx]
      by_cases ha : atual.isEmpty
      · rw [if_pos ha, if_pos ha, ih []]
      · rw [if_neg ha, if_neg ha, ih []]
    · rw [if_neg hx, if_neg hx, ih (x :: atual)]

theorem dividirEspacos_stripL (s : List Char) :
    dividirEspacos (stripL s) = dividirEspacos s := by
  rw [dividirEspacos, dividirEspacos]
  have hdecomp : s.dropWhile ehEspaco =
      stripL s ++ ((s.dropWhile ehEspaco).reverse.takeWhile ehEspaco).reverse := by
    rw [stripL]
    conv_lhs => rw [← List.reverse_reverse (s.dropWhile ehEspaco),
      ← List.takeWhile_append_dropWhile (p := ehEspaco)
        (l := (s.dropWhile ehEspaco).reverse)]
    rw [List.reverse_append]
  have hws : ∀ c ∈ ((s.dropWhile ehEspaco).reverse.takeWhile ehEspaco).reverse,
      ehEspaco c = true := by
    intro c hc
    exact List.mem_takeWhile_imp (List.mem_reverse.1 hc)
  calc dividirEspAux [] (stripL s)
      = dividirEspAux []
          (stripL s ++ ((s.dropWhile ehEspaco).reverse.takeWhile ehEspaco).reverse) :=
        (dividirEspAux_append_ws hws (stripL s) []).symm
    _ = dividirEspAux [] (s.dropWhile ehEspaco) := by rw [← hdecomp]
    _ = dividirEspAux [] s := dividirEspAux_dropWhile s

/-!
## Substring tests and padding
-/

theorem comecaCom_append {p s w : List Char} (h : comecaCom p s = true) :
    comecaCom p (s ++ w) = true := by
  induction p generalizing s with
  | nil => rfl
  | cons x ps ih =>
    cases s with
    | nil => simp [comecaCom] at h
    | cons c t =>
      rw [comecaCom, Bool.and_eq_true] at h
      rw [List.cons_append, comecaCom, Bool.and_eq_true]
      exact ⟨h.1, ih h.2⟩

theorem contemSub_vazia (s : List Char) : contemSub [] s = true := by
  cases s with
  | nil => rfl
  | cons c t => rw [contemSub]; rfl

theorem contemSub_cons_de {a t : List Char} {c : Char} (h : contemSub a t = true) :
    contemSub a (c :: t) = true := by
  rw [contemSub, h, Bool.or_true]

theorem contemSub_append_esq {a s w : List Char} (h : contemSub a s = true) :
    contemSub a (s ++ w) = true := by
  induction s with
  | nil =>
    rw [contemSub_nil] at h
    rw [List.isEmpty_iff] at h
    subst h
    exact contemSub_vazia w
  | cons c t ih =>
    rw [contemSub, Bool.or_eq_true] at h
    rcases h with h | h
    · have h2 : comecaCom a (c :: (t ++ w)) = true := by
        rw [← List.cons_append]
        exact comecaCom_append h
      rw [List.cons_append, contemSub, h2]
      rfl
    · exact contemSub_cons_de (ih h)

theorem contemSub_append_dir {a s t : List Char} (h : contemSub a t = true) :
    contemSub a (s ++ t) = true := by
  induction s with
  | nil => exact h
  | cons c u ih => exact contemSub_cons_de ih

theorem dropWhile_ws_append {w u : List Char} (hw : ∀ c ∈ w, ehEspaco c = true) :
    (w ++ u).dropWhile ehEspaco = u.dropWhile ehEspaco := by
  induction w with
  | nil => rfl
  | cons c t ih =>
    rw [List.cons_append, List.dropWhile_cons_of_pos (hw c (List.mem_cons_self _ _))]
    exact ih fun d hd => hw d (List.mem_cons_of_mem _ hd)

theorem dropWhile_ws_nil {w : List Char} (hw : ∀ c ∈ w, ehEspaco c = true) :
    w.dropWhile ehEspaco = [] := by
  have := dropWhile_ws_append (u := []) hw
  simpa using this

theorem dropWhile_append_ne {u w : List Char} (h : u.dropWhile ehEspaco ≠ []) :
    (u ++ w).dropWhile ehEspaco = u.dropWhile ehEspaco ++ w := by
  induction u with
  | nil => simp at h
  | cons x t ih =>
    by_cases hx : ehEspaco x
    · rw [List.dropWhile_cons_of_pos hx] at h
      rw [List.cons_append, List.dropWhile_cons_of_pos hx, ih h,
        List.dropWhile_cons_of_pos hx]
    · rw [List.cons_append, List.dropWhile_cons_of_neg hx, List.dropWhile_cons_of_neg hx,
        List.cons_append]

theorem stripL_pad {w1 u w2 : List Char} (hw1 : ∀ c ∈ w1, ehEspaco c = true)
    (hw2 : ∀ c ∈ w2, ehEspaco c = true) : stripL (w1 ++ u ++ w2) = stripL u := by
  rw [stripL, stripL, List.append_assoc, dropWhile_ws_append hw1]
  by_cases he : u.dropWhile ehEspaco = []
  · rw [show (u ++ w2).dropWhile ehEspaco = [] from by
      rw [List.dropWhile_eq_nil_iff] at he ⊢
      intro x hx
      rcases List.mem_append.1 hx with hx | hx
      · exact he x hx
      · exact hw2 x hx]
    rw [he]
  · rw [dropWhile_append_ne he, List.reverse_append,
      dropWhile_ws_append fun c hc => hw2 c (List.mem_reverse.1 hc)]

/-!
## Fixed points of the suffix-removal and of the full normaliser
-/

theorem string_ext {a b : String} (h : a.data = b.data) : a = b := by
  cases a with
  | mk d =>
    cases b with
    | mk e =>
      simp only at h
      rw [h]

theorem data_mk (l : List Char) : (⟨l⟩ : String).data = l := rfl

theorem decomposicao (s : List Char) :
    ∃ w1 w2, s = w1 ++ stripL s ++ w2 ∧ (∀ c ∈ w1, ehEspaco c = true) ∧
      ∀ c ∈ w2, ehEspaco c = true := by
  refine ⟨s.takeWhile ehEspaco,
    ((s.dropWhile ehEspaco).reverse.takeWhile ehEspaco).reverse, ?_,
    fun c hc => List.mem_takeWhile_imp hc,
    fun c hc => List.mem_takeWhile_imp (List.mem_reverse.1 hc)⟩
  conv_lhs => rw [← List.takeWhile_append_dropWhile (p := ehEspaco) (l := s)]
  rw [List.append_assoc]
  congr 1
  conv_lhs => rw [← List.reverse_reverse (s.dropWhile ehEspaco),
    ← List.takeWhile_append_dropWhile (p := ehEspaco) (l := (s.dropWhile ehEspaco).reverse)]
  rw [List.reverse_append, stripL]

theorem substituirVazioF_fix {alvo s : List Char} (h : contemSub alvo s = false) :
    ∀ fuel, substituirVazioF alvo fuel s = s := by
  intro fuel
  induction fuel generalizing s with
  | zero => rw [substituirVazioF]
  | succ f ih =>
    cases s with
    | nil => rw [substituirVazioF]
    | cons c t =>
      rw [contemSub, Bool.or_eq_false_iff] at h
      rw [substituirVazioF, if_neg (by simp [h.1]), ih h.2]

theorem substituirVazio_fix {alvo s : List Char} (h : contemSub alvo s = false) :
    substituirVazio alvo s = s := by
  rw [substituirVazio]
  split
  · rfl
  · exact substituirVazioF_fix h _

theorem foldl_substituir_fix {sufs : List String} {z : List Char}
    (h : ∀ suf ∈ sufs, contemSub suf.data z = false) :
    sufs.foldl (fun acc suf => substituirVazio suf.data acc) z = z := by
  induction sufs with
  | nil => rfl
  | cons suf t ih =>
    rw [List.foldl_cons, substituirVazio_fix (h suf (List.mem_cons_self _ _))]
    exact ih fun r hr => h r (List.mem_cons_of_mem _ hr)

theorem substituirVazio_nil (alvo : List Char) : substituirVazio alvo [] = [] := by
  rw [substituirVazio]
  split
  · rfl
  · rw [show ([] : List Char).length = 0 from rfl, substituirVazioF]

theorem foldl_substituir_nil (sufs : List String) :
    sufs.foldl (fun acc suf => substituirVazio suf.data acc) [] = [] := by
  induction sufs with
  | nil => rfl
  | cons suf t ih => rw [List.foldl_cons, substituirVazio_nil]; exact ih

theorem rem_fix {s : List Char} (h : ∀ c ∈ s, semAcentoChar c = [c]) :
    removerAcentos s = s := by
  rw [removerAcentos]
  exact concatMapL_fix h

theorem rem_append (a b : List Char) :
    removerAcentos (a ++ b) = removerAcentos a ++ removerAcentos b := by
  rw [removerAcentos, concatMapL_append]
  rfl

theorem maius_append (a b : List Char) :
    maiusculas (a ++ b) = maiusculas a ++ maiusculas b := by
  rw [maiusculas, List.map_append]
  rfl

theorem maius_fix {s : List Char} (h : ∀ c ∈ s, maiusculaChar c = c) :
    maiusculas s = s := by
  rw [maiusculas]
  exact map_fix h

theorem rem_ws {s : List Char} (h : ∀ c ∈ s, ehEspaco c = true) :
    removerAcentos s = s :=
  rem_fix fun c hc => espaco_fixoAcento (h c hc)

theorem maius_ws {s : List Char} (h : ∀ c ∈ s, ehEspaco c = true) :
    maiusculas s = s :=
  maius_fix fun c hc => espaco_fixoMaiuscula (h c hc)

theorem normalizar_nome_data {nome : String} (h : nome ≠ "") :
    (normalizar_nome nome).data =
      juntarEspaco (dividirEspacos (sufixos.foldl
        (fun acc suf => substituirVazio suf.data acc)
        (stripL (maiusculas (removerAcentos nome.data))))) := by
  rw [normalizar_nome, if_neg h]

theorem stripL_vazio_ws {s : List Char} (h : stripL s = []) :
    ∀ c ∈ s, ehEspaco c = true := by
  have hdw : (s.dropWhile ehEspaco).reverse.dropWhile ehEspaco = [] := by
    rw [stripL] at h
    rwa [List.reverse_eq_nil_iff] at h
  have ht : ∀ c ∈ s.dropWhile ehEspaco, ehEspaco c = true := by
    intro c hc
    exact List.dropWhile_eq_nil_iff.1 hdw c (List.mem_reverse.2 hc)
  intro c hc
  conv at hc => rw [← List.takeWhile_append_dropWhile (p := ehEspaco) (l := s)]
  rcases List.mem_append.1 hc with hc | hc
  · exact List.mem_takeWhile_imp hc
  · exact ht c hc

/-- Applying the normaliser to the pre-stripped name gives the same key
as applying it to the raw name (the internal `.strip()` and the final
whitespace collapse absorb the outer strip). -/
theorem normalizar_nome_stripL (s : String) :
    normalizar_nome ⟨stripL s.data⟩ = normalizar_nome s := by
  by_cases hs : s = ""
  · subst hs
    rfl
  by_cases hp : stripL s.data = []
  · rw [hp]
    have hL : normalizar_nome ⟨([] : List Char)⟩ = "" := rfl
    rw [hL]
    refine (string_ext ?_).symm
    rw [normalizar_nome_data hs, rem_ws (stripL_vazio_ws hp),
      maius_ws (stripL_vazio_ws hp), hp, foldl_substituir_nil]
    rfl
  · have hne : (⟨stripL s.data⟩ : String) ≠ "" := by
      intro hmk
      exact hp (by
        have := congrArg String.data hmk
        simpa using this)
    apply string_ext
    rw [normalizar_nome_data hne, normalizar_nome_data hs, data_mk]
    obtain ⟨w1, w2, hdec, hw1, hw2⟩ := decomposicao s.data
    have hcore : stripL (maiusculas (removerAcentos (stripL s.data))) =
        stripL (maiusculas (removerAcentos s.data)) := by
      conv_rhs => rw [hdec]
      rw [rem_append, rem_append, rem_ws hw1, rem_ws hw2,
        maius_append, maius_append, maius_ws hw1, maius_ws hw2,
        stripL_pad hw1 hw2]
    rw [hcore]

/-- Every character of a normalised name is accent-free and upper-case
invariant (it came out of the accent stripper and the upper-casing, or
is the join's space). -/
theorem carater_normalizado {x : String} (hx : x ≠ "") {c : Char}
    (hc : c ∈ (normalizar_nome x).data) :
    semAcentoChar c = [c] ∧ maiusculaChar c = c := by
  rw [normalizar_nome_data hx] at hc
  rcases mem_juntarEspaco hc with ⟨p, hp, hcp⟩ | rfl
  · rw [dividirEspacos] at hp
    have hcs3 : c ∈ sufixos.foldl (fun acc suf => substituirVazio suf.data acc)
        (stripL (maiusculas (removerAcentos x.data))) := by
      rcases mem_dividirEspAux hp hcp with h | h
      · simp at h
      · exact h
    have h1 := mem_stripL (mem_foldl_substituir hcs3)
    rw [maiusculas] at h1
    rcases List.mem_map.1 h1 with ⟨d, hd, rfl⟩
    rw [removerAcentos] at hd
    rcases mem_concatMapL hd with ⟨e, _, hde⟩
    have hsem : semAcentoChar d = [d] := semAcento_fixo_saida hde
    exact ⟨maiusculaChar_fixoAcento hsem, maiusculaChar_idem d⟩
  · exact ⟨by decide, by decide⟩

/-- The normaliser is idempotent on every name whose normal form contains
no corporate-suffix occurrence. -/
theorem normalizar_nome_fix {x : String}
    (h : ∀ suf ∈ sufixos, contemSub suf.data (normalizar_nome x).data = false) :
    normalizar_nome (normalizar_nome x) = normalizar_nome x := by
  by_cases hx : x = ""
  · subst hx
    rfl
  by_cases hy : normalizar_nome x = ""
  · rw [hy]
    rfl
  apply string_ext
  rw [normalizar_nome_data hy]
  rw [rem_fix fun c hc => (carater_normalizado hx hc).1]
  rw [maius_fix fun c hc => (carater_normalizado hx hc).2]
  have hsub : ∀ suf ∈ sufixos, contemSub suf.data (stripL (normalizar_nome x).data) = false := by
    intro suf hsuf
    cases hcc : contemSub suf.data (stripL (normalizar_nome x).data) with
    | false => rfl
    | true =>
      obtain ⟨w1, w2, hdec, _, _⟩ := decomposicao (normalizar_nome x).data
      rw [List.append_assoc] at hdec
      have h2 : contemSub suf.data (normalizar_nome x).data = true := by
        rw [hdec]
        exact contemSub_append_dir (contemSub_append_esq hcc)
      rw [h suf hsuf] at h2
      exact Bool.noConfusion h2
  rw [foldl_substituir_fix hsub, dividirEspacos_stripL]
  conv_lhs => rw [normalizar_nome_data hx]
  conv_rhs => rw [normalizar_nome_data hx]
  rw [show dividirEspacos (juntarEspaco (dividirEspacos (sufixos.foldl
      (fun acc suf => substituirVazio suf.data acc)
      (stripL (maiusculas (removerAcentos x.data)))))) =
    dividirEspacos (sufixos.foldl (fun acc suf => substituirVazio suf.data acc)
      (stripL (maiusculas (removerAcentos x.data)))) from
    dividir_juntar dividirEspacos_pecas]

/-!
## The claims
-/

/-- C1 (counterexample): when exactly one extraction parses, the
consolidation dispatch of `processar_processo` passes it through
verbatim, so a record with two parties sharing one normalised-name key
reaches the canonical record untouched: the claimed invariant fails for
that pipeline run. -/
theorem C1_contraexemplo :
    consolidar [extDuplicada] = some extDuplicada ∧
      ¬ (extDuplicada.partes.map fun p => normalizar_nome p.nome).Nodup := by
  constructor
  · rfl
  · decide

/-- C1 (amended): whenever the merge stage is actually applied (at least
two parsed extractions), the canonical record's parties list contains at
most one entry per normalised-name key. -/
theorem C1_partes_chave_unica (extracoes : List Extracao) (r : Extracao)
    (hlen : 2 ≤ extracoes.length) (hr : consolidar extracoes = some r) :
    (r.partes.map fun p => normalizar_nome p.nome).Nodup := by
  rw [consolidar.eq_def, if_pos (by omega)] at hr
  rcases Option.some_injective _ hr with rfl
  have hnodup : ((mesclar_extracoes extracoes).partes.map parteChave).Nodup :=
    (dedupGoS_chaves).1
  have hmapeq : (mesclar_extracoes extracoes).partes.map parteChave =
      ((mesclar_extracoes extracoes).partes.map fun p => normalizar_nome p.nome).map
        String.data := by
    rw [List.map_map]
    refine List.map_congr_left ?_
    intro p _
    show (normalizar_nome ⟨stripL p.nome.data⟩).data = (normalizar_nome p.nome).data
    rw [normalizar_nome_stripL]
  rw [hmapeq] at hnodup
  exact hnodup.of_map String.data

/-- C1 (witness): a merged run with two extractions yields distinct
normalised party keys. -/
theorem C1_testemunha :
    ((mesclar_extracoes [extParteBoa, extParteNull]).partes.map
      fun p => normalizar_nome p.nome).Nodup :=
  C1_partes_chave_unica [extParteBoa, extParteNull]
    (mesclar_extracoes [extParteBoa, extParteNull]) (by decide) rfl

/-- C2 (counterexample): with exactly one parsed extraction the merge
stage — and with it the noise filter — is skipped, so an event whose
description contains the noise phrase `assinado eletronicamente` does
appear in the canonical record's `historico_detalhado`. -/
theorem C2_contraexemplo :
    consolidar [extRuidosa] = some extRuidosa ∧
      eventoRuido ∈ extRuidosa.historico_detalhado ∧
      is_evento_relevante (descricaoDe eventoRuido) = false := by
  refine ⟨rfl, by decide, by decide⟩

/-- C2 (amended): whenever the merge stage is applied (at least two
parsed extractions), every event in the canonical record's three event
lists passes `is_evento_relevante`, so no event whose description
contains a noise phrase — in particular `"Documento assinado
eletronicamente"` — appears in them. -/
theorem C2_sem_ruido (extracoes : List Extracao) (r : Extracao)
    (hlen : 2 ≤ extracoes.length) (hr : consolidar extracoes = some r) (h : Hist)
    (hmem : h ∈ r.historico_processual ∨ h ∈ r.historico_fatico ∨
      h ∈ r.historico_detalhado) :
    is_evento_relevante (descricaoDe h) = true := by
  rw [consolidar.eq_def, if_pos (by omega)] at hr
  rcases Option.some_injective _ hr with rfl
  rcases hmem with hmem | hmem | hmem
  · exact keptHist_guard (mem_histProcessualDe hmem).1
  · exact keptHist_guard (mem_histFaticoDe hmem).1
  · exact keptHist_guard ((perm_detalhado_kept extracoes).mem_iff.1 hmem)

/-- C2 (witness): the substantive event survives a two-extraction merge
and is relevant. -/
theorem C2_testemunha :
    is_evento_relevante
      (descricaoDe ⟨"15/01/2023", "Sentença", some "Sentença proferida nos autos"⟩) = true :=
  C2_sem_ruido [extEventoBom, extRuidosa]
    (mesclar_extracoes [extEventoBom, extRuidosa]) (by decide) rfl
    ⟨"15/01/2023", "Sentença", some "Sentença proferida nos autos"⟩
    (Or.inl (by decide))

/-- C3 (counterexample): for `status_atual` the merge keeps the LAST
non-empty value (source comment `pega o último não vazio`), not the
first: with statuses `"Fase de citação"` then `"Fase de sentença"` the
merged record carries the second. -/
theorem C3_contraexemplo :
    (mesclar_extracoes [extStatus1, extStatus2]).status_atual ≠
      primeiroNaoVazio ([extStatus1, extStatus2].map Extracao.status_atual) ∧
      (mesclar_extracoes [extStatus1, extStatus2]).status_atual = "Fase de sentença" := by
  constructor
  · decide
  · decide

/-- C3 (amended): `objeto_acao` keeps the first non-empty value across
the extractions; `status_atual` keeps the last non-empty value. -/
theorem C3_primeiro_ultimo (extracoes : List Extracao) :
    (mesclar_extracoes extracoes).objeto_acao =
        primeiroNaoVazio (extracoes.map Extracao.objeto_acao) ∧
      (mesclar_extracoes extracoes).status_atual =
        ultimoNaoVazio (extracoes.map Extracao.status_atual) := by
  constructor
  · show extracoes.foldl passoObjeto "" = _
    rw [foldl_passoObjeto, if_pos rfl]
  · show extracoes.foldl passoStatus "" = _
    rw [foldl_passoStatus]
    by_cases h : ultimoNaoVazio (extracoes.map Extracao.status_atual) = ""
    · rw [if_pos h, h]
    · rw [if_neg h]

/-- C4 (counterexample): the two items of the specification's example do
NOT collapse: the Brazilian-format numeric cleanup reads
`"R$10000.00"` as `1000000` (the dot is stripped as a thousands
separator), so the two dedup keys differ and both entries survive. -/
theorem C4_contraexemplo :
    deduplicar_valores [valorCausa1, valorCausa2] = [valorCausa1, valorCausa2] ∧
      (deduplicar_valores [valorCausa1, valorCausa2]).length ≠ 1 := by
  constructor
  · decide
  · decide

/-- C4 (amended): the pair of the example stays as two entries because
the keys differ (`10000.00` versus `1000000.00`); the collapse to one
entry does happen when the second value is written with the Brazilian
decimal comma (`"R$10000,00"`), which shares the rounded value and the
first-three-words key with the first item. -/
theorem C4_dedup_valores :
    deduplicar_valores [valorCausa1, valorCausa2] = [valorCausa1, valorCausa2] ∧
      chaveValor valorCausa1 ≠ chaveValor valorCausa2 ∧
      deduplicar_valores [valorCausa1, valorCausa2BR] = [valorCausa1] ∧
      chaveValor valorCausa1 = chaveValor valorCausa2BR := by
  refine ⟨by decide, by decide, by decide, by decide⟩

/-- C5 (counterexample): merging an already-merged record with itself
does NOT leave it unchanged: the `decisoes` list is appended without any
deduplication, so it is doubled. -/
theorem C5_contraexemplo :
    mesclar_extracoes [mesclar_extracoes [extDecisao, extObjeto],
        mesclar_extracoes [extDecisao, extObjeto]] ≠
      mesclar_extracoes [extDecisao, extObjeto] := by
  decide

/-- C5 (amended): consolidating the singleton `[merge(A,B)]` through the
merge again reproduces `merge(A,B)` exactly; and merging `merge(A,B)`
with itself reproduces it provided the merged record has no `decisoes`
(the one field the source appends without deduplication). -/
theorem C5_idempotencia :
    (∀ A B : Extracao,
        mesclar_extracoes [mesclar_extracoes [A, B]] = mesclar_extracoes [A, B]) ∧
      ∀ A B : Extracao, (mesclar_extracoes [A, B]).decisoes = [] →
        mesclar_extracoes [mesclar_extracoes [A, B], mesclar_extracoes [A, B]] =
          mesclar_extracoes [A, B] :=
  ⟨fun A B => mesclar_remerge [A, B], fun A B h => mesclar_dobro [A, B] h⟩

/-- C5 (witness): both parts of the amended claim at concrete records. -/
theorem C5_testemunha :
    mesclar_extracoes [mesclar_extracoes [extDecisao, extObjeto]] =
        mesclar_extracoes [extDecisao, extObjeto] ∧
      mesclar_extracoes [mesclar_extracoes [extObjeto, extStatus2],
          mesclar_extracoes [extObjeto, extStatus2]] =
        mesclar_extracoes [extObjeto, extStatus2] :=
  ⟨C5_idempotencia.1 extDecisao extObjeto,
    C5_idempotencia.2 extObjeto extStatus2 (by decide)⟩

/-- C6 (counterexample): a party named `"null"` is NOT dropped by the
merge (the source only checks for the literal `NONE`): it survives into
the canonical parties list. -/
theorem C6_contraexemplo :
    (mesclar_extracoes [extParteNull]).partes = [parteNull] ∧ parteNull.nome = "null" := by
  constructor
  · decide
  · rfl

/-- C6 (amended): the merge drops every party whose stripped name is
empty or is the literal placeholder `none` in any casing; the
placeholder `null` is not filtered here (only later by the renderers). -/
theorem C6_filtro_partes (extracoes : List Extracao) (p : Parte)
    (hmem : p ∈ (mesclar_extracoes extracoes).partes) :
    stripL p.nome.data ≠ [] ∧ maiusculas (stripL p.nome.data) ≠ "NONE".data := by
  have hg := dedupGoS_guard hmem
  rw [parteGuard] at hg
  simp only [Bool.and_eq_true, Bool.not_eq_true', List.isEmpty_eq_false,
    beq_eq_false_iff_ne, ne_eq] at hg
  exact ⟨hg.1.1, hg.1.2⟩

/-- C6 (witness): an ordinary party is kept and satisfies the filter. -/
theorem C6_testemunha :
    stripL ("Maria da Silva" : String).data ≠ [] ∧
      maiusculas (stripL ("Maria da Silva" : String).data) ≠ "NONE".data :=
  C6_filtro_partes [extParteBoa] ⟨"Maria da Silva", "Autor"⟩ (by decide)

/-- C7: for every text and configuration with a positive computed budget
(the only reachable ones — the chunk-size fields are never overridden
from the configuration file), the chunker returns a non-empty list of
chunks, each of length at most `int(chunk_size * chars_per_token)`; and
when page-splitting yields no pages, the result is the single chunk
consisting of the budget-truncated original text. -/
theorem C7_chunker (texto : String) (config : Config) (modo : String)
    (hpos : 0 < max_chars config modo) :
    (dividir_em_chunks texto config modo ≠ [] ∧
        ∀ c ∈ dividir_em_chunks texto config modo,
          (c.data.length : ℤ) ≤ max_chars config modo) ∧
      (paginasDe texto.data = [] →
        dividir_em_chunks texto config modo =
          [⟨texto.data.take (max_chars config modo).toNat⟩]) :=
  ⟨dividir_em_chunks_bound texto config modo hpos,
    fun h => dividir_em_chunks_vazio texto config modo h⟩

/-- C7 (witness): the chunker at the default configuration, local mode,
empty input. -/
theorem C7_testemunha :
    (dividir_em_chunks "" {} "local" ≠ [] ∧
        ∀ c ∈ dividir_em_chunks "" {} "local",
          (c.data.length : ℤ) ≤ max_chars {} "local") ∧
      (paginasDe ("" : String).data = [] →
        dividir_em_chunks "" {} "local" =
          [⟨("" : String).data.take (max_chars {} "local").toNat⟩]) :=
  C7_chunker "" {} "local" (by
    rw [show max_chars {} "local" = 24000 from by
      rw [max_chars]
      rw [if_neg (by decide)]
      rw [pyTrunc]
      norm_num]
    norm_num)

/-- C8 (counterexample): the normaliser is not idempotent: removing the
suffix `" S/A"` from `"A LTD S/AA"` manufactures a new occurrence of the
suffix `" LTDA"`, which a second application then removes. -/
theorem C8_contraexemplo :
    normalizar_nome (normalizar_nome "A LTD S/AA") ≠ normalizar_nome "A LTD S/AA" ∧
      normalizar_nome "A LTD S/AA" = "A LTDA" ∧ normalizar_nome "A LTDA" = "A" := by
  refine ⟨by decide, by decide, by decide⟩

/-- C8 (amended): the three example names all normalise to the same key,
namely the literal string EMPRESA ABC, and the normaliser is idempotent
on every string whose normal form contains no corporate-suffix occurrence
(the counterexample shows the restriction is necessary). -/
theorem C8_normalizacao :
    (normalizar_nome "Empresa ABC Ltda." = "EMPRESA ABC" ∧
        normalizar_nome "EMPRESA ABC LTDA" = "EMPRESA ABC" ∧
        normalizar_nome "Empresa  ABC" = "EMPRESA ABC") ∧
      ∀ x : String, semSufixo (normalizar_nome x) = true →
        normalizar_nome (normalizar_nome x) = normalizar_nome x := by
  refine ⟨⟨by decide, by decide, by decide⟩, ?_⟩
  intro x hx
  refine normalizar_nome_fix ?_
  intro suf hsuf
  have := List.all_eq_true.1 hx suf hsuf
  simpa using this

/-- C8 (witness): the idempotence instance at the first example name. -/
theorem C8_testemunha :
    semSufixo (normalizar_nome "Empresa ABC Ltda.") = true ∧
      normalizar_nome (normalizar_nome "Empresa ABC Ltda.") =
        normalizar_nome "Empresa ABC Ltda." :=
  ⟨by decide, C8_normalizacao.2 "Empresa ABC Ltda." (by decide)⟩

/-- C9: against an all-429 oracle the Google call issues exactly four
requests (the initial one and three retries) and returns the empty
reply; against an all-timeout oracle it issues three (two retries) and
returns the empty reply; after the forced 60-second wait of a 429 the
limiter state is reset (request counter back to zero, window start at
the post-wait clock, observable in the final state of a 429-then-ok
run); and an empty reply makes the chunk loop skip that chunk and
continue, so the run never aborts. -/
theorem C9_google_retry :
    (∀ σ : GSt, (chamar_google (fun _ => GResp.rate429) σ).1 = "" ∧
        (chamar_google (fun _ => GResp.rate429) σ).2.2 = 4) ∧
      (∀ σ : GSt, (chamar_google (fun _ => GResp.timeout) σ).1 = "" ∧
        (chamar_google (fun _ => GResp.timeout) σ).2.2 = 3) ∧
      chamar_google (fun n => if n = 0 then GResp.rate429 else GResp.ok "resposta")
          ⟨0, 0, 0, 0⟩ = ("resposta", ⟨60, 60, 1, 60⟩, 2) ∧
      ∀ (parse : String → Option Extracao) (rs : List String),
        extrairDeRespostas parse ("" :: rs) = extrairDeRespostas parse rs := by
  refine ⟨fun σ => ⟨rfl, rfl⟩, fun σ => ⟨rfl, rfl⟩, ?_, ?_⟩
  · have hsym : chamar_google (fun n => if n = 0 then GResp.rate429 else GResp.ok "resposta")
        ⟨0, 0, 0, 0⟩ =
        ("resposta", preRequest ⟨(preRequest ⟨0, 0, 0, 0⟩).clock + 60,
          (preRequest ⟨0, 0, 0, 0⟩).lastRequest, 0,
          (preRequest ⟨0, 0, 0, 0⟩).clock + 60⟩, 2) := rfl
    have hpre0 : preRequest ⟨0, 0, 0, 0⟩ = ⟨0, 0, 1, 0⟩ := by
      rw [preRequest]
      norm_num
    have hpre2 : preRequest ⟨60, 0, 0, 60⟩ = ⟨60, 60, 1, 60⟩ := by
      rw [preRequest]
      norm_num
    rw [hsym, hpre0]
    norm_num
    exact hpre2
  · intro parse rs
    rw [extrairDeRespostas, if_pos rfl]

/-- C10: when exactly one partial extraction parses successfully, the
consolidation dispatch returns that extraction verbatim — the merge (and
with it the noise filtering, deduplication and sorting) is not applied. -/
theorem C10_verbatim (e : Extracao) : consolidar [e] = some e := rfl

end BotSintese
